import Mathlib

/-
Verification of the query-parameter merge engine of qparams (src/qparams.py).

The embedding models strings as lists of characters ( `Str` ). The Python
module delegates URL splitting and percent-encoding to urlparse/urllib; those
collaborators are modelled at the byte level for the character range the
module manipulates. All definitions are translated from src/qparams.py; the
source line numbers are recorded in the doc comments.
-/

set_option autoImplicit false

/-- Strings are modelled as lists of characters (Python 2 byte strings). -/
abbrev Str := List Char

/-- Concatenation of the images of a list under a list-valued function. -/
def concatMap {α β : Type} (f : α → List β) : List α → List β
  | [] => []
  | x :: xs => f x ++ concatMap f xs

/-- Characters never escaped by Python 2 urllib.quote: the always_safe set
(letters, digits, underscore, dot, hyphen). -/
def alwaysSafe (c : Char) : Bool :=
  c.isAlpha || c.isDigit || c = '_' || c = '.' || c = '-'

/-- Uppercase hexadecimal digit, as produced by urllib.quote. -/
def hexUp (n : Nat) : Char :=
  if n < 10 then Char.ofNat (48 + n) else Char.ofNat (55 + n)

/-- Percent-escape of one byte, as in urllib.quote. Characters are assumed to
lie in the byte range the Python 2 module operates on. -/
def pctEncode (c : Char) : Str :=
  ['%', hexUp (c.toNat / 16 % 16), hexUp (c.toNat % 16)]

/-- Encoding of one character under urllib.quote with safe set empty. -/
def quoteChar (c : Char) : Str :=
  if alwaysSafe c then [c] else pctEncode c

/-- urllib.quote with safe set empty, as called at src/qparams.py:345
( quote(key, safe=...) with the slash unsafe). -/
def quote (s : Str) : Str := concatMap quoteChar s

/-- Encoding of one character under urllib.quote_plus: space becomes a plus,
safe characters stay, everything else is percent-escaped. -/
def quotePlusChar (c : Char) : Str :=
  if c = ' ' then ['+'] else quoteChar c

/-- urllib.quote_plus, the per-component encoder used by urllib.urlencode. -/
def quotePlus (s : Str) : Str := concatMap quotePlusChar s

/-- Python values that reach the merge engine: None, a scalar (strings and
numbers are modelled by their rendering), a tuple of scalars, or a list of
scalars. Scalars inside sequences may be None ( `Option Str` ). -/
inductive Val : Type where
  | null : Val
  | str (s : Str) : Val
  | tup (l : List (Option Str)) : Val
  | lst (l : List (Option Str)) : Val
deriving DecidableEq

/-- Python equality ( == ) on the values above: None equals only None,
strings compare by content, tuples and lists compare elementwise and never
equal each other or a scalar. -/
def pyEq : Val → Val → Bool
  | .null, .null => true
  | .str a, .str b => a = b
  | .tup a, .tup b => a = b
  | .lst a, .lst b => a = b
  | _, _ => false

/-- Python str() of a scalar that may be None, as applied by urlencode to
sequence elements. -/
def strOfScalar : Option Str → Str
  | none => "None".data
  | some s => s

/-- One key/value entry of the working collection. -/
abbrev Entry := Str × Val

/-- The ordered dictionary of src/qparams.py, modelled as an association list
with insertion order and distinct keys. -/
abbrev Dict := List Entry

/-- Lookup of a key in the ordered dictionary (first match). -/
def lookup? : Dict → Str → Option Val
  | [], _ => none
  | e :: rest, k => if e.1 = k then some e.2 else lookup? rest k

/-- Assignment dct[key] = val of an ordered dictionary: an existing key keeps
its position and gets the new value, a fresh key is appended at the end. -/
def dictSet : Dict → Str → Val → Dict
  | [], k, v => [(k, v)]
  | e :: rest, k, v => if e.1 = k then (e.1, v) :: rest else e :: dictSet rest k v

/-- Seen-set filter of src/qparams.py:381-382: keep the first occurrence of
every non-None element, drop None and repeated elements. -/
def dedupFirstAux (seen : List Str) : List (Option Str) → List (Option Str)
  | [] => []
  | none :: rest => dedupFirstAux seen rest
  | some x :: rest =>
    if x ∈ seen then dedupFirstAux seen rest
    else some x :: dedupFirstAux (x :: seen) rest

/-- The filter of _unique_list applied with an empty seen set. -/
def dedupFirst (l : List (Option Str)) : List (Option Str) := dedupFirstAux [] l

/-- Coercion of the stored value to a list, src/qparams.py:373-374: a list is
kept, anything else is wrapped as a one-element list. The tuple case is
unreachable because _unique_list asserts the stored value is not a tuple. -/
def valElemsA : Val → List (Option Str)
  | .lst l => l
  | .null => [none]
  | .str s => [some s]
  | .tup l => l

/-- Elements contributed by the new value, src/qparams.py:375-380: a tuple or
list contributes its elements, a scalar is appended as one element. -/
def valElemsB : Val → List (Option Str)
  | .tup l => l
  | .lst l => l
  | .null => [none]
  | .str s => [some s]

/-- Translation of _unique_list (src/qparams.py:364-382). The two assert
statements are modelled as failure: the stored value must not be a tuple, and
the two values must not both be None. -/
def unique_list : Val → Val → Option (List (Option Str))
  | .tup _, _ => none
  | .null, .null => none
  | a, b => some (dedupFirst (valElemsA a ++ valElemsB b))

/-- Translation of _update_key (src/qparams.py:352-362): an equal value is
silently dropped, a different value is merged into a deduplicated list, a
fresh key is stored as given. -/
def update_key (dct : Dict) (key : Str) (val : Val) : Option Dict :=
  match lookup? dct key with
  | some stored =>
    if pyEq val stored then some dct
    else (unique_list stored val).map (fun l => dictSet dct key (Val.lst l))
  | none => some (dictSet dct key val)

/-- Translation of _set_key (src/qparams.py:349-350): plain assignment. -/
def set_key (dct : Dict) (key : Str) (val : Val) : Dict :=
  dictSet dct key val

/-- The _set_key strategy wrapped into the failure monad used by the fold of
_update_params; plain assignment never fails. -/
def setKeyM (dct : Dict) (key : Str) (val : Val) : Option Dict :=
  some (set_key dct key val)

/-- Join of a list of strings with a separator, Python sep.join. -/
def joinSep (sep : Str) : List Str → Str
  | [] => []
  | [t] => t
  | t :: rest => t ++ sep ++ joinSep sep rest

/-- urlencode of the one-pair sequence ((key, val),) with doseq=True for a
scalar value: quote_plus of key and value joined by an equals sign. -/
def urlencodePair (k : Str) (v : Str) : Str :=
  quotePlus k ++ '=' :: quotePlus v

/-- Translation of _append_encoded_params (src/qparams.py:343-347): a None
value yields the quoted bare key, a scalar yields one key=value token, a
sequence yields one token per element joined by an ampersand (urlencode with
doseq=True always joins with the ampersand). -/
def encodePair (k : Str) : Val → Str
  | .null => quote k
  | .str s => urlencodePair k s
  | .tup l => joinSep ['&'] (l.map (fun e => urlencodePair k (strOfScalar e)))
  | .lst l => joinSep ['&'] (l.map (fun e => urlencodePair k (strOfScalar e)))

/-- Python str.split on a one-character separator: every occurrence splits,
empty segments are kept. -/
def splitOnChar (c : Char) : Str → List Str
  | [] => [[]]
  | x :: rest =>
    if x = c then [] :: splitOnChar c rest
    else
      match splitOnChar c rest with
      | h :: t => (x :: h) :: t
      | [] => [[x]]

/-- Split of a string at the first occurrence of a character, if any. -/
def splitFirst (c : Char) : Str → Option (Str × Str)
  | [] => none
  | x :: rest =>
    if x = c then some ([], rest)
    else (splitFirst c rest).map (fun p => (x :: p.1, p.2))

/-- Parse of one query chunk (src/qparams.py:301-305): a chunk with an equals
sign splits at the first one into key and value, a chunk without becomes a
key with value None. -/
def parseChunk (chunk : Str) : Entry :=
  match splitFirst '=' chunk with
  | some p => (p.1, Val.str p.2)
  | none => (chunk, Val.null)

/-- Parse of the whole query (src/qparams.py:299-305); an empty query yields
no chunks because of the guard if query. -/
def parseQuery (q : Str) (sep : Char) : List Entry :=
  if q = [] then [] else (splitOnChar sep q).map parseChunk

/-- Fold of the selected key-update strategy over a list of entries. -/
def foldEntries (upd : Dict → Str → Val → Option Dict) (d : Dict) :
    List Entry → Option Dict
  | [] => some d
  | e :: rest => match upd d e.1 e.2 with
    | some d2 => foldEntries upd d2 rest
    | none => none

/-- The collection built by _update_params (src/qparams.py:296-313): fold the
strategy over the parsed query, then the ordered parameters dictionary, then
the keyword arguments. -/
def mergedDict (q : Str) (pd kwargs : List Entry) (sep : Char)
    (upd : Dict → Str → Val → Option Dict) : Option Dict :=
  match foldEntries upd [] (parseQuery q sep) with
  | none => none
  | some d1 =>
    match foldEntries upd d1 pd with
    | none => none
    | some d2 => foldEntries upd d2 kwargs

/-- Translation of _update_params (src/qparams.py:295-319): build the
collection and serialize it, one encoded token per key, joined with the
separator. -/
def update_params (q : Str) (pd kwargs : List Entry) (sep : Char)
    (upd : Dict → Str → Val → Option Dict) : Option Str :=
  (mergedDict q pd kwargs sep upd).map
    (fun d => joinSep [sep] (d.map (fun e => encodePair e.1 e.2)))

/-- Translation of _append_params (src/qparams.py:321-341): encode the
supplied entries in order and append them after the original query, which is
preserved verbatim; with an empty query only the new tokens appear. -/
def append_params (q : Str) (pd kwargs : List Entry) (sep : Char) : Str :=
  let encoded := (pd ++ kwargs).map (fun e => encodePair e.1 e.2)
  if q = [] then joinSep [sep] encoded
  else q ++ sep :: joinSep [sep] encoded

/-- Replacement of every occurrence of a character, Python str.replace for
one-character arguments (src/qparams.py:278). -/
def replaceChar (old new : Char) (s : Str) : Str :=
  s.map (fun c => if c = old then new else c)

/-- Separator inference of src/qparams.py:280: a semicolon when the query is
non-empty and contains one, otherwise an ampersand. -/
def inferSep (q : Str) : Char :=
  if q ≠ [] ∧ ';' ∈ q then ';' else '&'

/-- The opposite separator, _OTHER_SEPARATOR of src/qparams.py:221. -/
def otherSep (c : Char) : Char := if c = ';' then '&' else ';'

/-- Errors raised by add_query_params that are representable in this typed
embedding: the invalid separator TypeError (src/qparams.py:273-274) and the
AssertionError of _unique_list (src/qparams.py:371-372). The arity TypeErrors
and the missing-iteritems TypeError concern argument shapes that the typed
model cannot express. -/
inductive QPError : Type where
  | invalidSeparator (given : Str) : QPError
  | assertionError : QPError
deriving DecidableEq

/-- Separator handling of src/qparams.py:269-280: a supplied separator must be
a semicolon or an ampersand, and a query written entirely with the opposite
separator is rewritten onto the requested one; an absent separator is
inferred from the query. Returns the effective separator and the possibly
rewritten query. -/
def normSep (q : Str) (sepArg : Option Str) : Except QPError (Char × Str) :=
  match sepArg with
  | none => Except.ok (inferSep q, q)
  | some s =>
    if s ≠ [';'] ∧ s ≠ ['&'] then Except.error (QPError.invalidSeparator s)
    else
      let sep := if s = [';'] then ';' else '&'
      if q ≠ [] ∧ sep ∉ q ∧ otherSep sep ∈ q then
        Except.ok (sep, replaceChar (otherSep sep) sep q)
      else Except.ok (sep, q)

/-- Strategy dispatch of src/qparams.py:282-290: a true allow_dups appends,
None overrides via _set_key, False groups via _update_key. -/
def mergeQuery (allowDups : Option Bool) (q : Str) (pd kwargs : List Entry)
    (sep : Char) : Option Str :=
  match allowDups with
  | some true => some (append_params q pd kwargs sep)
  | none => update_params q pd kwargs sep setKeyM
  | some false => update_params q pd kwargs sep update_key

/-- The URL components the module touches. The base collects scheme,
authority, path and path parameters, which add_query_params passes through
untouched (src/qparams.py:292-293). -/
structure UrlParts : Type where
  base : Str
  query : Str
  frag : Str
deriving DecidableEq

/-- Split of a URL at the first hash mark into prefix and fragment; no hash
mark means an empty fragment. -/
def splitHash (u : Str) : Str × Str :=
  match splitFirst '#' u with
  | some p => p
  | none => (u, [])

/-- Split of a URL remainder at the first question mark into base and query;
no question mark means an empty query. -/
def splitQm (u : Str) : Str × Str :=
  match splitFirst '?' u with
  | some p => p
  | none => (u, [])

/-- Model of urlparse restricted to the components the module uses: the
fragment is everything after the first hash mark, the query everything after
the first question mark of the remainder, the base the rest. -/
def urlparse3 (url : Str) : UrlParts :=
  ⟨(splitQm (splitHash url).1).1, (splitQm (splitHash url).1).2, (splitHash url).2⟩

/-- Model of urlunparse on the same components: the question mark is written
only for a non-empty query and the hash mark only for a non-empty fragment. -/
def urlunparse3 (p : UrlParts) : Str :=
  p.base ++ (if p.query = [] then [] else '?' :: p.query)
    ++ (if p.frag = [] then [] else '#' :: p.frag)

/-- The positional arguments of add_query_params. Python passes them
variadically; the four legal arities are the four constructors. The second
argument allow_dups is True, False or None ( `Option Bool` ); the third is
either None or a dictionary ( `Option (List Entry)` ); the fourth is the
separator string. -/
inductive PyArgs : Type where
  | a1 (url : Str) : PyArgs
  | a2 (url : Str) (allowDups : Option Bool) : PyArgs
  | a3 (url : Str) (allowDups : Option Bool) (paramsDict : Option (List Entry)) : PyArgs
  | a4 (url : Str) (allowDups : Option Bool) (paramsDict : Option (List Entry))
      (separator : Str) : PyArgs
deriving DecidableEq

/-- First positional argument. -/
def PyArgs.url : PyArgs → Str
  | .a1 u => u
  | .a2 u _ => u
  | .a3 u _ _ => u
  | .a4 u _ _ _ => u

/-- Number of positional arguments supplied. -/
def PyArgs.argc : PyArgs → Nat
  | .a1 _ => 1
  | .a2 _ _ => 2
  | .a3 _ _ _ => 3
  | .a4 _ _ _ _ => 4

/-- Second positional argument with its default (src/qparams.py:282). -/
def PyArgs.allowDups : PyArgs → Option Bool
  | .a1 _ => some true
  | .a2 _ b => b
  | .a3 _ b _ => b
  | .a4 _ b _ _ => b

/-- The params dict actually used (src/qparams.py:259-267): absent, None and
empty all collapse to the empty dictionary. -/
def PyArgs.pdList : PyArgs → List Entry
  | .a1 _ => []
  | .a2 _ _ => []
  | .a3 _ _ pd => pd.getD []
  | .a4 _ _ pd _ => pd.getD []

/-- Python truthiness of the third positional argument. -/
def PyArgs.pdTruthy : PyArgs → Bool
  | .a3 _ _ (some (_ :: _)) => true
  | .a4 _ _ (some (_ :: _)) _ => true
  | _ => false

/-- Fourth positional argument when supplied. -/
def PyArgs.sepArg : PyArgs → Option Str
  | .a4 _ _ _ s => some s
  | _ => none

/-- Translation of add_query_params (src/qparams.py:223-293). The arity
errors of lines 245-250 are unrepresentable here because the four legal
arities are the four constructors of PyArgs, and the iteritems check of lines
259-265 always succeeds because the third argument is typed. Line 251-253 is
the no-parameters short circuit; note that it fires before the separator is
validated. -/
def add_query_params (args : PyArgs) (kwargs : List Entry) : Except QPError Str :=
  if (args.argc = 1 ∨ (args.argc > 2 ∧ args.pdTruthy = false)) ∧ kwargs = [] then
    Except.ok args.url
  else
    match normSep (urlparse3 args.url).query args.sepArg with
    | Except.error e => Except.error e
    | Except.ok sq =>
      match mergeQuery args.allowDups sq.2 args.pdList kwargs sq.1 with
      | none => Except.error QPError.assertionError
      | some enc =>
        Except.ok (urlunparse3
          ⟨(urlparse3 args.url).base, enc, (urlparse3 args.url).frag⟩)

/-- Modelled from the spec, for claim C2 only: the separator-inference rule as
the spec words it, to be compared with inferSep translated from the source:
prefer ';' if present and '&' absent, else '&', defaulting to '&' for an
empty query. -/
def specInferSep (q : Str) : Char :=
  if ';' ∈ q ∧ '&' ∉ q then ';' else '&'

/-- Accumulate the keys of a stream into a seen list: a key already present
is skipped, a fresh key is appended. This is how an insertion-ordered
dictionary collects its key order. -/
def addNewKeys (acc : List Str) : List Str → List Str
  | [] => acc
  | k :: ks => if k ∈ acc then addNewKeys acc ks else addNewKeys (acc ++ [k]) ks

/-- Distinct keys of a list in order of first occurrence. -/
def distinctKeysFO (ks : List Str) : List Str := addNewKeys [] ks

/-- Total fold of the _set_key strategy over a list of entries; plain
assignment never fails, so the fold of _update_params specialises to this. -/
def foldSetList (d : Dict) : List Entry → Dict
  | [] => d
  | e :: rest => foldSetList (set_key d e.1 e.2) rest

/-- Replacement of the value stored under one key, everything else kept. -/
def mapValAt (d : Dict) (k : Str) (w : Val) : Dict :=
  d.map (fun e => if e.1 = k then (e.1, w) else e)

/-- The value a scalar turns into after one serialize-parse cycle: a string
value is re-encoded by quote_plus, None survives unchanged. -/
def reEnc : Val → Val
  | Val.str s => Val.str (quotePlus s)
  | v => v

/-- Test that a value serializes to a token that parses back to the same
value: None always does, a string does when quote_plus fixes it. -/
def stableValB : Val → Bool
  | Val.null => true
  | Val.str s => quotePlus s == s
  | _ => false

/-- Test that an entry of the collection survives a serialize-parse cycle
unchanged: its key and its scalar value are fixed by the encoders. -/
def stableEntryB (e : Entry) : Bool :=
  (quotePlus e.1 == e.1) && stableValB e.2

/-- Claim C10 property of one stored value: a list value holds pairwise
distinct, non-None elements. Values that are not lists are unconstrained. -/
def valDistinctOk : Val → Bool
  | Val.lst l => decide l.Nodup && l.all (fun x => x.isSome)
  | _ => true

/-- Claim C10 distinctness invariant over the whole collection. -/
def groupDistinctOk (d : Dict) : Bool := d.all (fun e => valDistinctOk e.2)

/-- Claim C10 non-emptiness property of one stored value. -/
def valNonEmpty : Val → Bool
  | Val.lst l => !l.isEmpty
  | _ => true

/-- Claim C10 non-emptiness invariant over the whole collection. -/
def groupNonEmpty (d : Dict) : Bool := d.all (fun e => valNonEmpty e.2)

/-- Test that a value is a sequence with no non-None element; folding such a
value into a key stored as None produces an empty list. -/
def seqNoScalar : Val → Bool
  | Val.tup l => l.all (fun x => x.isNone)
  | Val.lst l => l.all (fun x => x.isNone)
  | _ => false

/-- Claim C1 (code bug): calling the merge with the policy argument supplied
but no parameters at all is NOT a no-op: the APPEND branch appends a trailing
separator to the query, so the url comes back changed, contradicting the
claim and the docstring of add_query_params. -/
theorem claim1_noop_failing_eval :
    add_query_params (PyArgs.a2 "foo?a=b".data (some true)) [] =
      Except.ok "foo?a=b&".data := by
  rfl

/-- Claim C2 counterexample: on a query containing both separators the source
infers ';' while the claim requires '&' (it wants ';' only when '&' is
absent). -/
theorem claim2_counterexample :
    inferSep "a=1&b;c".data ≠ specInferSep "a=1&b;c".data := by
  decide

/-- Claim C2 amended: when the separator argument is not supplied, the
effective separator handed to parsing and serialization is ';' exactly when
the existing query contains ';' (regardless of whether '&' is also present),
and '&' otherwise, including for the empty query; the query itself is not
rewritten. -/
theorem claim2_amended (q : Str) :
    normSep q none = Except.ok ((if ';' ∈ q then ';' else '&'), q) := by
  by_cases h : ';' ∈ q
  · have hne : q ≠ [] := List.ne_nil_of_mem h
    simp [normSep, inferSep, h, hne]
  · simp [normSep, inferSep, h]

/-- Claim C3 counterexample: a query written with ';' whose duplicate keys
are grouped under the DEDUPE policy serializes the group with '&' (urlencode
always joins with '&'), so the output query carries both separators even
though the input query carried only ';'. -/
theorem claim3_counterexample :
    add_query_params (PyArgs.a2 "foo?a=1;a=2".data (some false))
        [("b".data, Val.str "x".data)] =
      Except.ok "foo?a=1&a=2;b=x".data
    ∧ '&' ∈ "a=1&a=2;b=x".data ∧ ';' ∈ "a=1&a=2;b=x".data
    ∧ '&' ∉ "a=1;a=2".data := by
  exact ⟨rfl, by decide, by decide, by decide⟩

/-- Claim C4 counterexample: under OVERRIDE a sequence value is stored as-is
and serialized with one token per element, so a duplicated element yields a
duplicated token; the claim predicts de-duplication to a single token. -/
theorem claim4_counterexample :
    add_query_params (PyArgs.a2 "foo".data none)
        [("a".data, Val.tup [some "q".data, some "q".data])] =
      Except.ok "foo?a=q&a=q".data
    ∧ "foo?a=q&a=q".data ≠ "foo?a=q".data := by
  exact ⟨rfl, by decide⟩

/-- Claim C5 counterexample: an invalid separator argument is NOT reported
when no parameters are supplied, because the no-parameters short circuit of
src/qparams.py:251-253 returns the url before the separator check of lines
270-274 runs. -/
theorem claim5_counterexample :
    add_query_params (PyArgs.a4 "a".data (some true) none "#".data) [] =
      Except.ok "a".data
    ∧ "#".data ≠ [';'] ∧ "#".data ≠ ['&'] := by
  exact ⟨rfl, by decide, by decide⟩

/-- Claim C6 counterexample: folding an exact duplicate of the existing pair
( a , %2F ) under DEDUPE leaves the collection unchanged, but serialization
re-encodes the stored value, so the returned URL differs from the input. -/
theorem claim6_counterexample :
    add_query_params (PyArgs.a2 "foo?a=%2F".data (some false))
        [("a".data, Val.str "%2F".data)] =
      Except.ok "foo?a=%252F".data
    ∧ "foo?a=%252F".data ≠ "foo?a=%2F".data := by
  exact ⟨rfl, by decide⟩

/-- Claim C7 counterexample: OVERRIDE is not idempotent when the url carries
another key whose value gains an escape on every serialize cycle: the second
application re-encodes the percent sign again. -/
theorem claim7_counterexample :
    add_query_params (PyArgs.a2 "foo?x=%2F".data none)
        [("a".data, Val.str "b".data)] =
      Except.ok "foo?x=%252F&a=b".data
    ∧ add_query_params (PyArgs.a2 "foo?x=%252F&a=b".data none)
        [("a".data, Val.str "b".data)] =
      Except.ok "foo?x=%25252F&a=b".data
    ∧ "foo?x=%25252F&a=b".data ≠ "foo?x=%252F&a=b".data := by
  exact ⟨rfl, rfl, by decide⟩

/-- Claim C10 counterexample: folding an empty sequence into a key stored as
None produces an empty stored list, violating the non-emptiness part of the
claimed invariant; the distinctness invariant also fails at creation, since
an unseen key stores a duplicated sequence as-is. -/
theorem claim10_counterexample :
    update_key [("a".data, Val.null)] "a".data (Val.tup []) =
      some [("a".data, Val.lst [])]
    ∧ groupNonEmpty [("a".data, Val.lst [])] = false := by
  exact ⟨rfl, by decide⟩

/-- Join of a list whose head is non-empty is non-empty. -/
theorem joinSep_cons_ne_nil {sep t : Str} {ts : List Str} (ht : t ≠ []) :
    joinSep sep (t :: ts) ≠ [] := by
  cases ts with
  | nil => exact ht
  | cons r rs =>
    simp only [joinSep]
    intro h
    simp only [List.append_eq_nil] at h
    exact ht h.1.1

/-- Claim C4 amended: under OVERRIDE a sequence value supplied for a key is
stored exactly as that sequence, and the serialized output contains one token
per element of the sequence, in supplied order, duplicates retained (no
de-duplication happens; urlencode joins the tokens of the group with '&'). -/
theorem claim4_amended (k : Str) (l : List (Option Str)) (hl : l ≠ []) :
    add_query_params (PyArgs.a2 "foo".data none) [(k, Val.tup l)] =
      Except.ok ("foo?".data ++
        joinSep ['&'] (l.map (fun e => urlencodePair k (strOfScalar e)))) := by
  obtain ⟨e, l2, rfl⟩ := List.exists_cons_of_ne_nil hl
  have henc : joinSep ['&'] (urlencodePair k (strOfScalar e) ::
      l2.map (fun x => urlencodePair k (strOfScalar x))) ≠ [] := by
    refine joinSep_cons_ne_nil ?_
    simp [urlencodePair]
  have hm : add_query_params (PyArgs.a2 "foo".data none) [(k, Val.tup (e :: l2))] =
      Except.ok (urlunparse3 ⟨"foo".data,
        joinSep ['&'] ((e :: l2).map (fun x => urlencodePair k (strOfScalar x))), []⟩) := rfl
  rw [hm]
  simp only [urlunparse3, List.map_cons]
  rw [if_neg henc, if_pos trivial, List.append_nil]
  rfl

/-- Claim C4 witness: the amended statement at the duplicated sequence of the
counterexample. -/
theorem claim4_witness :
    add_query_params (PyArgs.a2 "foo".data none)
        [("a".data, Val.tup [some "q".data, some "q".data])] =
      Except.ok ("foo?".data ++
        joinSep ['&'] ([some "q".data, some "q".data].map
          (fun e => urlencodePair "a".data (strOfScalar e)))) :=
  claim4_amended "a".data [some "q".data, some "q".data] (by decide)

/-- Claim C5 amended: an invalid separator argument is reported before any
parsing or merging whenever parameters are supplied (a truthy third argument
or non-empty keyword arguments); with no parameters at all the no-parameters
short circuit returns the url first and the separator is never validated. -/
theorem claim5_amended (url : Str) (ad : Option Bool) (pd : Option (List Entry))
    (s : Str) (kwargs : List Entry)
    (hs1 : s ≠ [';']) (hs2 : s ≠ ['&'])
    (hp : (PyArgs.a4 url ad pd s).pdTruthy = true ∨ kwargs ≠ []) :
    add_query_params (PyArgs.a4 url ad pd s) kwargs =
      Except.error (QPError.invalidSeparator s) := by
  have hns : ∀ q : Str, normSep q (some s) =
      Except.error (QPError.invalidSeparator s) := by
    intro q
    simp only [normSep]
    rw [if_pos ⟨hs1, hs2⟩]
  unfold add_query_params
  rw [if_neg ?hno]
  case hno =>
    rintro ⟨h1, h2⟩
    rcases hp with hp | hp
    · rcases h1 with h1 | h1
      · simp [PyArgs.argc] at h1
      · rw [hp] at h1
        simp at h1
    · exact hp h2
  simp only [PyArgs.sepArg, PyArgs.url]
  rw [hns]

/-- Claim C5 witness: the amended statement at a concrete invalid separator
with a keyword argument supplied. -/
theorem claim5_witness :
    add_query_params (PyArgs.a4 "a".data (some true) none "#".data)
        [("b".data, Val.str "c".data)] =
      Except.error (QPError.invalidSeparator "#".data) :=
  claim5_amended "a".data (some true) none "#".data [("b".data, Val.str "c".data)]
    (by decide) (by decide) (Or.inr (by decide))

/-- Claim C9: under DEDUPE and OVERRIDE the original query tokens are parsed
and re-encoded without decoding, so a token carrying a percent escape changes
even though no supplied parameter touches its key; under APPEND the original
query substring is kept verbatim as a prefix of the output query and never
re-encoded. -/
theorem claim9_reencode :
    add_query_params (PyArgs.a2 "foo?x=%2F".data (some false))
        [("b".data, Val.str "y".data)] = Except.ok "foo?x=%252F&b=y".data
    ∧ add_query_params (PyArgs.a2 "foo?x=%2F".data none)
        [("b".data, Val.str "y".data)] = Except.ok "foo?x=%252F&b=y".data
    ∧ "x=%252F".data ≠ "x=%2F".data
    ∧ ∀ (q : Str) (pd kwargs : List Entry) (sep : Char), q ≠ [] →
        append_params q pd kwargs sep =
          q ++ sep :: joinSep [sep]
            ((pd ++ kwargs).map (fun e : Entry => encodePair e.1 e.2)) := by
  refine ⟨rfl, rfl, by decide, ?_⟩
  intro q pd kwargs sep hq
  simp [append_params, hq]

/-- Claim C9 witness: the verbatim-preservation conjunct at a concrete query
containing a percent escape. -/
theorem claim9_witness :
    append_params "x=%2F".data [] [("c".data, Val.null)] '&' =
      "x=%2F".data ++ '&' :: joinSep ['&']
        (([] ++ [("c".data, Val.null)]).map (fun e : Entry => encodePair e.1 e.2)) :=
  claim9_reencode.2.2.2 "x=%2F".data [] [("c".data, Val.null)] '&' (by decide)

/-- Hexadecimal digits produced by hexUp lie in the always-safe set. -/
theorem alwaysSafe_hexUp {n : Nat} (h : n < 16) : alwaysSafe (hexUp n) = true := by
  interval_cases n <;> decide

/-- Members of an image under concatMap come from one element of the list. -/
theorem mem_concatMap {α β : Type} {f : α → List β} {l : List α} {b : β}
    (h : b ∈ concatMap f l) : ∃ a ∈ l, b ∈ f a := by
  induction l with
  | nil => simp [concatMap] at h
  | cons x xs ih =>
    simp only [concatMap, List.mem_append] at h
    rcases h with h | h
    · exact ⟨x, List.mem_cons_self x xs, h⟩
    · obtain ⟨a, ha, hb⟩ := ih h
      exact ⟨a, List.mem_cons_of_mem x ha, hb⟩

/-- Characters of a percent escape: the percent sign or a safe hex digit. -/
theorem mem_pctEncode {c2 c : Char} (h : c2 ∈ pctEncode c) :
    alwaysSafe c2 = true ∨ c2 = '%' := by
  simp only [pctEncode, List.mem_cons, List.not_mem_nil, or_false] at h
  rcases h with h | h | h
  · exact Or.inr h
  · exact Or.inl (h ▸ alwaysSafe_hexUp (Nat.mod_lt _ (by norm_num)))
  · exact Or.inl (h ▸ alwaysSafe_hexUp (Nat.mod_lt _ (by norm_num)))

/-- Characters emitted by the quote encoder for one character. -/
theorem mem_quoteChar {c2 c : Char} (h : c2 ∈ quoteChar c) :
    alwaysSafe c2 = true ∨ c2 = '%' := by
  unfold quoteChar at h
  split at h
  · next hc =>
    simp only [List.mem_singleton] at h
    exact Or.inl (h ▸ hc)
  · exact mem_pctEncode h

/-- Characters emitted by the quote_plus encoder for one character. -/
theorem mem_quotePlusChar {c2 c : Char} (h : c2 ∈ quotePlusChar c) :
    alwaysSafe c2 = true ∨ c2 = '%' ∨ c2 = '+' := by
  unfold quotePlusChar at h
  split at h
  · simp only [List.mem_singleton] at h
    exact Or.inr (Or.inr h)
  · rcases mem_quoteChar h with h | h
    · exact Or.inl h
    · exact Or.inr (Or.inl h)

/-- Characters of a quote_plus encoding: safe, percent or plus. -/
theorem mem_quotePlus {c2 : Char} {s : Str} (h : c2 ∈ quotePlus s) :
    alwaysSafe c2 = true ∨ c2 = '%' ∨ c2 = '+' := by
  obtain ⟨a, _, hb⟩ := mem_concatMap h
  exact mem_quotePlusChar hb

/-- Characters of a quote encoding: safe or percent. -/
theorem mem_quote {c2 : Char} {s : Str} (h : c2 ∈ quote s) :
    alwaysSafe c2 = true ∨ c2 = '%' := by
  obtain ⟨a, _, hb⟩ := mem_concatMap h
  exact mem_quoteChar hb

/-- Members of a join come from the separator or from one of the pieces. -/
theorem mem_joinSep {c : Char} {sep : Str} {L : List Str} (h : c ∈ joinSep sep L) :
    c ∈ sep ∨ ∃ t ∈ L, c ∈ t := by
  induction L with
  | nil => simp [joinSep] at h
  | cons t ts ih =>
    cases ts with
    | nil =>
      exact Or.inr ⟨t, List.mem_cons_self t [], h⟩
    | cons r rs =>
      simp only [joinSep, List.append_assoc, List.mem_append] at h
      rcases h with h | h | h
      · exact Or.inr ⟨t, List.mem_cons_self t _, h⟩
      · exact Or.inl h
      · rcases ih h with h2 | ⟨u, hu, hc⟩
        · exact Or.inl h2
        · exact Or.inr ⟨u, List.mem_cons_of_mem t hu, hc⟩

/-- Characters of one urlencoded key=value token. -/
theorem mem_urlencodePair {c : Char} {k v : Str} (h : c ∈ urlencodePair k v) :
    alwaysSafe c = true ∨ c = '%' ∨ c = '+' ∨ c = '=' := by
  simp only [urlencodePair, List.mem_append, List.mem_cons] at h
  rcases h with h | h | h
  · rcases mem_quotePlus h with h | h | h
    · exact Or.inl h
    · exact Or.inr (Or.inl h)
    · exact Or.inr (Or.inr (Or.inl h))
  · exact Or.inr (Or.inr (Or.inr h))
  · rcases mem_quotePlus h with h | h | h
    · exact Or.inl h
    · exact Or.inr (Or.inl h)
    · exact Or.inr (Or.inr (Or.inl h))

/-- Characters of one encoded token of the serializer: safe, or one of the
structural characters percent, plus, equals, ampersand. -/
theorem mem_encodePair {c : Char} {k : Str} {v : Val} (h : c ∈ encodePair k v) :
    alwaysSafe c = true ∨ c = '%' ∨ c = '+' ∨ c = '=' ∨ c = '&' := by
  cases v with
  | null =>
    rcases mem_quote h with h | h
    · exact Or.inl h
    · exact Or.inr (Or.inl h)
  | str s =>
    rcases mem_urlencodePair h with h | h | h | h
    · exact Or.inl h
    · exact Or.inr (Or.inl h)
    · exact Or.inr (Or.inr (Or.inl h))
    · exact Or.inr (Or.inr (Or.inr (Or.inl h)))
  | tup l =>
    rcases mem_joinSep h with h | ⟨t, ht, hc⟩
    · simp only [List.mem_singleton] at h
      exact Or.inr (Or.inr (Or.inr (Or.inr h)))
    · obtain ⟨e, _, rfl⟩ := List.mem_map.mp ht
      rcases mem_urlencodePair hc with h | h | h | h
      · exact Or.inl h
      · exact Or.inr (Or.inl h)
      · exact Or.inr (Or.inr (Or.inl h))
      · exact Or.inr (Or.inr (Or.inr (Or.inl h)))
  | lst l =>
    rcases mem_joinSep h with h | ⟨t, ht, hc⟩
    · simp only [List.mem_singleton] at h
      exact Or.inr (Or.inr (Or.inr (Or.inr h)))
    · obtain ⟨e, _, rfl⟩ := List.mem_map.mp ht
      rcases mem_urlencodePair hc with h | h | h | h
      · exact Or.inl h
      · exact Or.inr (Or.inl h)
      · exact Or.inr (Or.inr (Or.inl h))
      · exact Or.inr (Or.inr (Or.inr (Or.inl h)))

/-- A character that is unsafe and none of the structural characters never
appears in an encoded token. -/
theorem encodePair_not_mem {c : Char} {k : Str} {v : Val}
    (h1 : alwaysSafe c = false) (h2 : c ≠ '%') (h3 : c ≠ '+') (h4 : c ≠ '=')
    (h5 : c ≠ '&') : c ∉ encodePair k v := by
  intro h
  rcases mem_encodePair h with h | h | h | h | h
  · rw [h1] at h; cases h
  · exact h2 h
  · exact h3 h
  · exact h4 h
  · exact h5 h

/-- Absence of the character makes splitFirst fail. -/
theorem splitFirst_eq_none {c : Char} {s : Str} (h : c ∉ s) :
    splitFirst c s = none := by
  induction s with
  | nil => rfl
  | cons x xs ih =>
    simp only [List.mem_cons, not_or] at h
    simp only [splitFirst]
    rw [if_neg (fun he => h.1 he.symm), ih h.2]
    rfl

/-- Split of a string at an explicit first occurrence. -/
theorem splitFirst_append {c : Char} {a b : Str} (ha : c ∉ a) :
    splitFirst c (a ++ c :: b) = some (a, b) := by
  induction a with
  | nil => simp [splitFirst]
  | cons x xs ih =>
    simp only [List.mem_cons, not_or] at ha
    rw [List.cons_append]
    simp only [splitFirst]
    rw [if_neg (fun he => ha.1 he.symm), ih ha.2]
    rfl

/-- Components of a successful splitFirst: the string decomposes at the first
occurrence and the left part is free of the character. -/
theorem splitFirst_eq_some {c : Char} {s a b : Str}
    (h : splitFirst c s = some (a, b)) : s = a ++ c :: b ∧ c ∉ a := by
  induction s generalizing a with
  | nil => cases h
  | cons x xs ih =>
    simp only [splitFirst] at h
    by_cases hx : x = c
    · rw [if_pos hx] at h
      cases h
      refine ⟨?_, List.not_mem_nil c⟩
      rw [hx]
      rfl
    · rw [if_neg hx] at h
      cases hsf : splitFirst c xs with
      | none => rw [hsf] at h; cases h
      | some p =>
        rw [hsf] at h
        cases h
        obtain ⟨h1, h2⟩ := ih hsf
        refine ⟨by rw [List.cons_append, ← h1], ?_⟩
        simp only [List.mem_cons, not_or]
        exact ⟨fun he => hx he.symm, h2⟩

/-- Failure of splitFirst means the character is absent. -/
theorem splitFirst_none_not_mem {c : Char} {s : Str}
    (h : splitFirst c s = none) : c ∉ s := by
  induction s with
  | nil => exact List.not_mem_nil c
  | cons x xs ih =>
    simp only [splitFirst] at h
    by_cases hx : x = c
    · rw [if_pos hx] at h; cases h
    · rw [if_neg hx] at h
      simp only [List.mem_cons, not_or]
      exact ⟨fun he => hx he.symm, ih (Option.map_eq_none.mp h)⟩

/-- The prefix before the fragment carries no hash mark. -/
theorem splitHash_no_hash (u : Str) : '#' ∉ (splitHash u).1 := by
  unfold splitHash
  cases h : splitFirst '#' u with
  | none => exact splitFirst_none_not_mem h
  | some p => exact (splitFirst_eq_some (by rw [h])).2

/-- The base carries no question mark. -/
theorem splitQm_no_qm (s : Str) : '?' ∉ (splitQm s).1 := by
  unfold splitQm
  cases h : splitFirst '?' s with
  | none => exact splitFirst_none_not_mem h
  | some p => exact (splitFirst_eq_some (by rw [h])).2

/-- A character absent from the whole remainder is absent from both the base
and the query. -/
theorem splitQm_sub {s : Str} {c : Char} (h : c ∉ s) :
    c ∉ (splitQm s).1 ∧ c ∉ (splitQm s).2 := by
  unfold splitQm
  cases hs : splitFirst '?' s with
  | none => exact ⟨h, List.not_mem_nil c⟩
  | some p =>
    obtain ⟨heq, _⟩ := @splitFirst_eq_some '?' s p.1 p.2 (by rw [hs])
    subst heq
    simp only [List.mem_append, List.mem_cons, not_or] at h
    exact ⟨h.1, h.2.2⟩

/-- The base of a parsed URL contains neither hash mark nor question mark,
and the query contains no hash mark. -/
theorem urlparse3_chars (u : Str) :
    '#' ∉ (urlparse3 u).base ∧ '?' ∉ (urlparse3 u).base
      ∧ '#' ∉ (urlparse3 u).query := by
  obtain ⟨h1, h2⟩ := splitQm_sub (splitHash_no_hash u)
  exact ⟨h1, splitQm_no_qm _, h2⟩

/-- Reassembling components with a clean base and a query free of hash marks
parses back to the same components. -/
theorem urlparse3_unparse {b q f : Str} (hb1 : '#' ∉ b) (hb2 : '?' ∉ b)
    (hq : '#' ∉ q) : urlparse3 (urlunparse3 ⟨b, q, f⟩) = ⟨b, q, f⟩ := by
  have hXh : '#' ∉ b ++ (if q = [] then [] else '?' :: q) := by
    simp only [List.mem_append, not_or]
    refine ⟨hb1, ?_⟩
    by_cases hqe : q = []
    · simp [hqe]
    · rw [if_neg hqe]
      simp only [List.mem_cons, not_or]
      exact ⟨by decide, hq⟩
  have hsh : splitHash (urlunparse3 ⟨b, q, f⟩) =
      (b ++ (if q = [] then [] else '?' :: q), f) := by
    unfold urlunparse3 splitHash
    by_cases hf : f = []
    · subst hf
      rw [if_pos rfl, List.append_nil, splitFirst_eq_none hXh]
    · rw [if_neg hf, splitFirst_append hXh]
  have hsq : splitQm (b ++ (if q = [] then [] else '?' :: q)) = (b, q) := by
    unfold splitQm
    by_cases hqe : q = []
    · subst hqe
      rw [if_pos rfl, List.append_nil, splitFirst_eq_none hb2]
    · rw [if_neg hqe, splitFirst_append hb2]
  unfold urlparse3
  rw [hsh]
  dsimp only
  rw [hsq]

/-- With no separator argument, normSep infers and keeps the query. -/
theorem normSep_none (q : Str) : normSep q none = Except.ok (inferSep q, q) := rfl

/-- A query without ';' infers the ampersand separator. -/
theorem inferSep_not_semi {q : Str} (h : ';' ∉ q) : inferSep q = '&' := by
  unfold inferSep
  rw [if_neg (fun hc => h hc.2)]

/-- Requesting the ampersand separator on a query without ';' validates and
leaves the query unrewritten. -/
theorem normSep_amp {q : Str} (h : ';' ∉ q) :
    normSep q (some ['&']) = Except.ok ('&', q) := by
  simp only [normSep]
  rw [if_neg (fun hc => hc.2 rfl)]
  rw [if_neg (fun hc => h hc.2.2)]
  exact rfl

/-- A character that is unsafe, not structural and not the separator never
appears in the serialization of a collection. -/
theorem joinSep_tokens_not_mem {c sep : Char} {d : Dict}
    (h1 : alwaysSafe c = false) (h2 : c ≠ '%') (h3 : c ≠ '+') (h4 : c ≠ '=')
    (h5 : c ≠ '&') (h6 : c ≠ sep) :
    c ∉ joinSep [sep] (d.map (fun e : Entry => encodePair e.1 e.2)) := by
  intro hm
  rcases mem_joinSep hm with hm | ⟨t, ht, hc⟩
  · simp only [List.mem_singleton] at hm
    exact h6 hm
  · obtain ⟨e, _, rfl⟩ := List.mem_map.mp ht
    exact encodePair_not_mem h1 h2 h3 h4 h5 hc

/-- A character that is unsafe, not structural, not the separator and absent
from the original query never appears in the merged query. -/
theorem mergeQuery_not_mem {c sep : Char} {ad : Option Bool} {q : Str}
    {pd kw : List Entry} {enc : Str}
    (h : mergeQuery ad q pd kw sep = some enc)
    (h1 : alwaysSafe c = false) (h2 : c ≠ '%') (h3 : c ≠ '+') (h4 : c ≠ '=')
    (h5 : c ≠ '&') (h6 : c ≠ sep) (hq : c ∉ q) : c ∉ enc := by
  have hupd : ∀ (upd : Dict → Str → Val → Option Dict),
      update_params q pd kw sep upd = some enc → c ∉ enc := by
    intro upd hu
    unfold update_params at hu
    obtain ⟨d, _, henc⟩ := Option.map_eq_some'.mp hu
    rw [← henc]
    exact joinSep_tokens_not_mem h1 h2 h3 h4 h5 h6
  cases ad with
  | none => exact hupd setKeyM h
  | some b =>
    cases b with
    | false => exact hupd update_key h
    | true =>
      simp only [mergeQuery, Option.some.injEq] at h
      rw [← h]
      unfold append_params
      by_cases hqe : q = []
      · rw [if_pos hqe]
        exact @joinSep_tokens_not_mem c sep (pd ++ kw) h1 h2 h3 h4 h5 h6
      · rw [if_neg hqe]
        intro hm
        rcases List.mem_append.mp hm with hm | hm
        · exact hq hm
        · rcases List.mem_cons.mp hm with hm | hm
          · exact h6 hm
          · exact @joinSep_tokens_not_mem c sep (pd ++ kw) h1 h2 h3 h4 h5 h6 hm

/-- Claim C3 amended: provided the existing query contains no ';' and the
separator argument, when present, is '&', the output query never contains
both '&' and ';' (in fact it contains no ';' at all). The unamended claim
fails because urlencode joins a multi-valued group with '&' even under the
';' separator, and because a query already mixing both separators is kept
verbatim under APPEND. -/
theorem claim3_amended (args : PyArgs) (kwargs : List Entry) (r : Str)
    (hq : ';' ∉ (urlparse3 args.url).query)
    (hs : args.sepArg = none ∨ args.sepArg = some ['&'])
    (h : add_query_params args kwargs = Except.ok r) :
    ¬ (';' ∈ (urlparse3 r).query ∧ '&' ∈ (urlparse3 r).query) := by
  unfold add_query_params at h
  split at h
  · cases h
    exact fun hc => hq hc.1
  · have hns : normSep (urlparse3 args.url).query args.sepArg =
        Except.ok ('&', (urlparse3 args.url).query) := by
      rcases hs with hs | hs
      · rw [hs, normSep_none, inferSep_not_semi hq]
      · rw [hs]
        exact normSep_amp hq
    rw [hns] at h
    dsimp only at h
    cases hm : mergeQuery args.allowDups (urlparse3 args.url).query
        args.pdList kwargs '&' with
    | none => rw [hm] at h; cases h
    | some enc =>
      rw [hm] at h
      cases h
      have hch := urlparse3_chars args.url
      have hence : ';' ∉ enc :=
        mergeQuery_not_mem hm (by decide) (by decide) (by decide) (by decide)
          (by decide) (by decide) hq
      have hench : '#' ∉ enc :=
        mergeQuery_not_mem hm (by decide) (by decide) (by decide) (by decide)
          (by decide) (by decide) hch.2.2
      rw [urlparse3_unparse hch.1 hch.2.1 hench]
      exact fun hc => hence hc.1

/-- Claim C3 witness: the amended statement at a concrete merge. -/
theorem claim3_witness :
    ¬ (';' ∈ (urlparse3 "foo?a=1&b=2".data).query
        ∧ '&' ∈ (urlparse3 "foo?a=1&b=2".data).query) := by
  have h := claim3_amended (PyArgs.a1 "foo?a=1".data)
    [("b".data, Val.str "2".data)] "foo?a=1&b=2".data
    (by decide) (Or.inl rfl) rfl
  exact h

/-- Fold of a strategy over the empty entry list. -/
theorem foldEntries_nil (upd : Dict → Str → Val → Option Dict) (d : Dict) :
    foldEntries upd d [] = some d := rfl

/-- Fold of a strategy over a single entry. -/
theorem foldEntries_single (upd : Dict → Str → Val → Option Dict) (d : Dict)
    (e : Entry) : foldEntries upd d [e] = upd d e.1 e.2 := by
  cases h : upd d e.1 e.2 with
  | none => simp [foldEntries, h]
  | some d2 => simp [foldEntries, h]

/-- Claim C6 amended: folding a duplicate whose value equals the stored
scalar leaves the collection unchanged, and merging an exact duplicate of an
existing query pair under DEDUPE returns the URL with its query replaced by
the re-serialization of the parsed original query; that re-serialization is
byte-for-byte the original query only when re-encoding fixes every token (as
in Example 3), not in general. -/
theorem claim6_amended :
    (∀ (d : Dict) (k s : Str), lookup? d k = some (Val.str s) →
        update_key d k (Val.str s) = some d)
    ∧ ∀ (url k s : Str) (C : Dict),
        foldEntries update_key []
            (parseQuery (urlparse3 url).query
              (inferSep (urlparse3 url).query)) = some C →
        lookup? C k = some (Val.str s) →
        add_query_params (PyArgs.a2 url (some false)) [(k, Val.str s)] =
          Except.ok (urlunparse3 ⟨(urlparse3 url).base,
            joinSep [inferSep (urlparse3 url).query]
              (C.map (fun e : Entry => encodePair e.1 e.2)),
            (urlparse3 url).frag⟩) := by
  have hcore : ∀ (d : Dict) (k s : Str), lookup? d k = some (Val.str s) →
      update_key d k (Val.str s) = some d := by
    intro d k s hl
    unfold update_key
    rw [hl]
    dsimp only
    rw [if_pos (by simp [pyEq])]
  refine ⟨hcore, ?_⟩
  intro url k s C hC hl
  have hm : mergeQuery (some false) (urlparse3 url).query [] [(k, Val.str s)]
      (inferSep (urlparse3 url).query) =
      some (joinSep [inferSep (urlparse3 url).query]
        (C.map (fun e : Entry => encodePair e.1 e.2))) := by
    show update_params (urlparse3 url).query [] [(k, Val.str s)]
        (inferSep (urlparse3 url).query) update_key = _
    unfold update_params
    have hd : mergedDict (urlparse3 url).query [] [(k, Val.str s)]
        (inferSep (urlparse3 url).query) update_key = some C := by
      unfold mergedDict
      rw [hC]
      show foldEntries update_key C [(k, Val.str s)] = some C
      rw [foldEntries_single]
      exact hcore C k s hl
    rw [hd]
    rfl
  unfold add_query_params
  rw [if_neg (by simp)]
  simp only [PyArgs.sepArg, PyArgs.url, PyArgs.allowDups, PyArgs.pdList]
  rw [normSep_none]
  dsimp only
  rw [hm]

/-- Claim C6 witness: Example 3 of the spec, where every token re-encodes to
itself, so the returned URL equals the input byte-for-byte. -/
theorem claim6_witness :
    add_query_params (PyArgs.a2 "http://e.com/a?a=b".data (some false))
        [("a".data, Val.str "b".data)] =
      Except.ok (urlunparse3 ⟨(urlparse3 "http://e.com/a?a=b".data).base,
        joinSep [inferSep (urlparse3 "http://e.com/a?a=b".data).query]
          ([("a".data, Val.str "b".data)].map
            (fun e : Entry => encodePair e.1 e.2)),
        (urlparse3 "http://e.com/a?a=b".data).frag⟩)
    ∧ urlunparse3 ⟨(urlparse3 "http://e.com/a?a=b".data).base,
        joinSep [inferSep (urlparse3 "http://e.com/a?a=b".data).query]
          ([("a".data, Val.str "b".data)].map
            (fun e : Entry => encodePair e.1 e.2)),
        (urlparse3 "http://e.com/a?a=b".data).frag⟩ =
      "http://e.com/a?a=b".data := by
  refine ⟨?_, by rfl⟩
  exact claim6_amended.2 "http://e.com/a?a=b".data "a".data "b".data
    [("a".data, Val.str "b".data)] rfl rfl

/-- Keys after an ordered-dictionary assignment: unchanged when the key was
present, appended otherwise. -/
theorem keys_dictSet (d : Dict) (k : Str) (v : Val) :
    (dictSet d k v).map Prod.fst =
      if k ∈ d.map Prod.fst then d.map Prod.fst else d.map Prod.fst ++ [k] := by
  induction d with
  | nil =>
    simp only [List.map_nil]
    rw [if_neg (List.not_mem_nil k)]
    rfl
  | cons e rest ih =>
    unfold dictSet
    by_cases he : e.1 = k
    · subst he
      rw [if_pos rfl, if_pos (show e.1 ∈ List.map Prod.fst (e :: rest) from
        List.mem_cons_self _ _)]
      rfl
    · rw [if_neg he]
      simp only [List.map_cons, ih]
      by_cases hk : k ∈ rest.map Prod.fst
      · rw [if_pos hk, if_pos (List.mem_cons_of_mem _ hk)]
      · rw [if_neg hk, if_neg ?hmem]
        case hmem =>
          intro hc
          rcases List.mem_cons.mp hc with hc | hc
          · exact he hc.symm
          · exact hk hc
        rfl

/-- A failing lookup means the key is absent. -/
theorem lookup?_eq_none {d : Dict} {k : Str} (h : lookup? d k = none) :
    k ∉ d.map Prod.fst := by
  induction d with
  | nil => simp
  | cons e rest ih =>
    unfold lookup? at h
    by_cases he : e.1 = k
    · rw [if_pos he] at h; cases h
    · rw [if_neg he] at h
      simp only [List.map_cons, List.mem_cons, not_or]
      exact ⟨fun hc => he hc.symm, ih h⟩

/-- A successful lookup means the key is present. -/
theorem lookup?_isSome_mem {d : Dict} {k : Str} {v : Val}
    (h : lookup? d k = some v) : k ∈ d.map Prod.fst := by
  induction d with
  | nil => cases h
  | cons e rest ih =>
    unfold lookup? at h
    by_cases he : e.1 = k
    · rw [← he]
      exact List.mem_cons_self _ _
    · rw [if_neg he] at h
      exact List.mem_cons_of_mem _ (ih h)

/-- A successful lookup yields an entry of the dictionary. -/
theorem lookup?_mem {d : Dict} {k : Str} {v : Val}
    (h : lookup? d k = some v) : (k, v) ∈ d := by
  induction d with
  | nil => cases h
  | cons e rest ih =>
    unfold lookup? at h
    by_cases he : e.1 = k
    · rw [if_pos he] at h
      cases h
      subst he
      exact List.mem_cons_self _ _
    · rw [if_neg he] at h
      exact List.mem_cons_of_mem _ (ih h)

/-- Entries of an assignment come from the dictionary or are the new pair. -/
theorem mem_dictSet {d : Dict} {k : Str} {v : Val} {e : Entry}
    (h : e ∈ dictSet d k v) : e ∈ d ∨ e = (k, v) := by
  induction d with
  | nil =>
    simp only [dictSet, List.mem_singleton] at h
    exact Or.inr h
  | cons e0 rest ih =>
    unfold dictSet at h
    by_cases he : e0.1 = k
    · rw [if_pos he] at h
      rcases List.mem_cons.mp h with rfl | h
      · exact Or.inr (by rw [he])
      · exact Or.inl (List.mem_cons_of_mem _ h)
    · rw [if_neg he] at h
      rcases List.mem_cons.mp h with rfl | h
      · exact Or.inl (List.mem_cons_self _ _)
      · rcases ih h with h | h
        · exact Or.inl (List.mem_cons_of_mem _ h)
        · exact Or.inr h

/-- Key bookkeeping of one _update_key step. -/
theorem update_key_keys {d : Dict} {k : Str} {v : Val} {d2 : Dict}
    (h : update_key d k v = some d2) :
    d2.map Prod.fst =
      if k ∈ d.map Prod.fst then d.map Prod.fst else d.map Prod.fst ++ [k] := by
  unfold update_key at h
  cases hl : lookup? d k with
  | some stored =>
    rw [hl] at h
    dsimp only at h
    have hk := lookup?_isSome_mem hl
    rw [if_pos hk]
    split at h
    · cases h; rfl
    · obtain ⟨l, _, h2⟩ := Option.map_eq_some'.mp h
      rw [← h2, keys_dictSet, if_pos hk]
  | none =>
    rw [hl] at h
    dsimp only at h
    cases h
    have hk := lookup?_eq_none hl
    rw [if_neg hk, keys_dictSet, if_neg hk]

/-- Key bookkeeping of one _set_key step. -/
theorem setKeyM_keys {d : Dict} {k : Str} {v : Val} {d2 : Dict}
    (h : setKeyM d k v = some d2) :
    d2.map Prod.fst =
      if k ∈ d.map Prod.fst then d.map Prod.fst else d.map Prod.fst ++ [k] := by
  cases h
  exact keys_dictSet d k v

/-- Key bookkeeping of a whole fold, for any strategy whose single step obeys
the ordered-dictionary discipline. -/
theorem foldEntries_keys {upd : Dict → Str → Val → Option Dict}
    (hstep : ∀ (d : Dict) (k : Str) (v : Val) (d2 : Dict), upd d k v = some d2 →
      d2.map Prod.fst =
        if k ∈ d.map Prod.fst then d.map Prod.fst else d.map Prod.fst ++ [k]) :
    ∀ (L : List Entry) (d d2 : Dict), foldEntries upd d L = some d2 →
      d2.map Prod.fst = addNewKeys (d.map Prod.fst) (L.map Prod.fst) := by
  intro L
  induction L with
  | nil =>
    intro d d2 h
    cases h
    rfl
  | cons e rest ih =>
    intro d d2 h
    unfold foldEntries at h
    cases hu : upd d e.1 e.2 with
    | none => rw [hu] at h; cases h
    | some d1 =>
      rw [hu] at h
      dsimp only at h
      have hk1 := hstep d e.1 e.2 d1 hu
      rw [ih d1 d2 h, hk1]
      simp only [List.map_cons, addNewKeys]
      by_cases hm : e.1 ∈ d.map Prod.fst
      · rw [if_pos hm, if_pos hm]
      · rw [if_neg hm, if_neg hm]

/-- Unfolding equation of addNewKeys on a cons cell. -/
theorem addNewKeys_cons (acc : List Str) (k : Str) (ks : List Str) :
    addNewKeys acc (k :: ks) =
      if k ∈ acc then addNewKeys acc ks else addNewKeys (acc ++ [k]) ks := rfl

/-- Accumulated keys decompose as the untouched accumulator followed by fresh
keys only. -/
theorem addNewKeys_decomp : ∀ (ks acc : List Str),
    ∃ extra, addNewKeys acc ks = acc ++ extra ∧ ∀ x ∈ extra, x ∉ acc := by
  intro ks
  induction ks with
  | nil =>
    intro acc
    exact ⟨[], by simp [addNewKeys], by simp⟩
  | cons k rest ih =>
    intro acc
    rw [addNewKeys_cons]
    by_cases hm : k ∈ acc
    · rw [if_pos hm]
      exact ih acc
    · rw [if_neg hm]
      obtain ⟨extra, he, hnotin⟩ := ih (acc ++ [k])
      refine ⟨k :: extra, ?_, ?_⟩
      · rw [he, List.append_assoc]
        rfl
      · intro x hx
        rcases List.mem_cons.mp hx with rfl | hx
        · exact hm
        · exact fun hxa => hnotin x hx (List.mem_append_left _ hxa)

/-- Accumulation splits over list concatenation. -/
theorem addNewKeys_append (acc l1 l2 : List Str) :
    addNewKeys acc (l1 ++ l2) = addNewKeys (addNewKeys acc l1) l2 := by
  induction l1 generalizing acc with
  | nil => rfl
  | cons k rest ih =>
    rw [List.cons_append, addNewKeys_cons, addNewKeys_cons]
    by_cases hm : k ∈ acc
    · rw [if_pos hm, if_pos hm]
      exact ih acc
    · rw [if_neg hm, if_neg hm]
      exact ih (acc ++ [k])

/-- Keys of the merged collection: the distinct original keys in first-seen
order, then the fresh supplied keys. -/
theorem mergedDict_keys {upd : Dict → Str → Val → Option Dict}
    (hstep : ∀ (d : Dict) (k : Str) (v : Val) (d2 : Dict), upd d k v = some d2 →
      d2.map Prod.fst =
        if k ∈ d.map Prod.fst then d.map Prod.fst else d.map Prod.fst ++ [k])
    {q : Str} {pd kw : List Entry} {sep : Char} {d : Dict}
    (h : mergedDict q pd kw sep upd = some d) :
    d.map Prod.fst =
      addNewKeys (distinctKeysFO ((parseQuery q sep).map Prod.fst))
        (pd.map Prod.fst ++ kw.map Prod.fst) := by
  unfold mergedDict at h
  cases h1 : foldEntries upd [] (parseQuery q sep) with
  | none => rw [h1] at h; cases h
  | some d1 =>
    rw [h1] at h
    dsimp only at h
    cases h2 : foldEntries upd d1 pd with
    | none => rw [h2] at h; cases h
    | some d2 =>
      rw [h2] at h
      dsimp only at h
      have k1 := foldEntries_keys hstep _ _ _ h1
      have k2 := foldEntries_keys hstep _ _ _ h2
      have k3 := foldEntries_keys hstep _ _ _ h
      rw [k3, k2, k1, addNewKeys_append]
      rfl

/-- Claim C8: under DEDUPE and OVERRIDE the keys of the merged collection
start with the distinct original keys, in the order of their first occurrence
in the query, followed only by keys not among them, so the relative order of
distinct original keys is preserved and the position of an existing key never
moves; under APPEND the original query is itself a verbatim prefix of the
output query. -/
theorem claim8_order :
    (∀ (q : Str) (pd kw : List Entry) (sep : Char) (d : Dict),
        mergedDict q pd kw sep update_key = some d →
        ∃ extra, d.map Prod.fst =
            distinctKeysFO ((parseQuery q sep).map Prod.fst) ++ extra
          ∧ ∀ x ∈ extra, x ∉ distinctKeysFO ((parseQuery q sep).map Prod.fst))
    ∧ (∀ (q : Str) (pd kw : List Entry) (sep : Char) (d : Dict),
        mergedDict q pd kw sep setKeyM = some d →
        ∃ extra, d.map Prod.fst =
            distinctKeysFO ((parseQuery q sep).map Prod.fst) ++ extra
          ∧ ∀ x ∈ extra, x ∉ distinctKeysFO ((parseQuery q sep).map Prod.fst))
    ∧ ∀ (q : Str) (pd kw : List Entry) (sep : Char), q ≠ [] →
        ∃ rest, append_params q pd kw sep = q ++ rest := by
  have hgen : ∀ (upd : Dict → Str → Val → Option Dict),
      (∀ (d : Dict) (k : Str) (v : Val) (d2 : Dict), upd d k v = some d2 →
        d2.map Prod.fst =
          if k ∈ d.map Prod.fst then d.map Prod.fst
          else d.map Prod.fst ++ [k]) →
      ∀ (q : Str) (pd kw : List Entry) (sep : Char) (d : Dict),
        mergedDict q pd kw sep upd = some d →
        ∃ extra, d.map Prod.fst =
            distinctKeysFO ((parseQuery q sep).map Prod.fst) ++ extra
          ∧ ∀ x ∈ extra, x ∉ distinctKeysFO ((parseQuery q sep).map Prod.fst) := by
    intro upd hstep q pd kw sep d h
    rw [mergedDict_keys hstep h]
    exact addNewKeys_decomp _ _
  refine ⟨hgen update_key (fun d k v d2 => update_key_keys),
    hgen setKeyM (fun d k v d2 => setKeyM_keys), ?_⟩
  intro q pd kw sep hq
  refine ⟨sep :: joinSep [sep]
    ((pd ++ kw).map (fun e : Entry => encodePair e.1 e.2)), ?_⟩
  simp [append_params, hq]

/-- Claim C8 witness: a concrete DEDUPE merge where the second value for the
first key is grouped in place and the fresh key stays behind the originals. -/
theorem claim8_witness :
    ∃ extra,
      ([(("a".data : Str), Val.lst [some "1".data, some "3".data]),
        (("b".data : Str), Val.str "2".data)] : Dict).map Prod.fst =
        distinctKeysFO ((parseQuery "a=1&b=2".data '&').map Prod.fst) ++ extra
      ∧ ∀ x ∈ extra,
          x ∉ distinctKeysFO ((parseQuery "a=1&b=2".data '&').map Prod.fst) :=
  claim8_order.1 "a=1&b=2".data [] [("a".data, Val.str "3".data)] '&'
    [(("a".data : Str), Val.lst [some "1".data, some "3".data]),
     (("b".data : Str), Val.str "2".data)] rfl

/-- Every element surviving the seen-set filter is a some whose payload was
not in the seen set. -/
theorem dedupFirstAux_mem {seen : List Str} {l : List (Option Str)}
    {y : Option Str} (h : y ∈ dedupFirstAux seen l) :
    ∃ x, y = some x ∧ x ∉ seen := by
  induction l generalizing seen with
  | nil => simp [dedupFirstAux] at h
  | cons a rest ih =>
    cases a with
    | none =>
      simp only [dedupFirstAux] at h
      exact ih h
    | some x =>
      simp only [dedupFirstAux] at h
      by_cases hx : x ∈ seen
      · rw [if_pos hx] at h
        exact ih h
      · rw [if_neg hx] at h
        rcases List.mem_cons.mp h with rfl | h
        · exact ⟨x, rfl, hx⟩
        · obtain ⟨x2, rfl, hx2⟩ := ih h
          exact ⟨x2, rfl, fun hc => hx2 (List.mem_cons_of_mem _ hc)⟩

/-- The seen-set filter yields pairwise distinct elements. -/
theorem dedupFirstAux_nodup (seen : List Str) (l : List (Option Str)) :
    (dedupFirstAux seen l).Nodup := by
  induction l generalizing seen with
  | nil => simp [dedupFirstAux]
  | cons a rest ih =>
    cases a with
    | none =>
      simp only [dedupFirstAux]
      exact ih seen
    | some x =>
      simp only [dedupFirstAux]
      by_cases hx : x ∈ seen
      · rw [if_pos hx]
        exact ih seen
      · rw [if_neg hx]
        refine List.nodup_cons.mpr ⟨?_, ih (x :: seen)⟩
        intro hmem
        obtain ⟨x2, heq, hnot⟩ := dedupFirstAux_mem hmem
        cases heq
        exact hnot (List.mem_cons_self _ _)

/-- The seen-set filter keeps at least one element whenever the input has a
some element whose payload is not yet seen. -/
theorem dedupFirstAux_ne_nil {seen : List Str} {l : List (Option Str)}
    {x : Str} (hx : some x ∈ l) (hseen : x ∉ seen) :
    dedupFirstAux seen l ≠ [] := by
  induction l generalizing seen with
  | nil => cases hx
  | cons a rest ih =>
    cases a with
    | none =>
      simp only [dedupFirstAux]
      refine ih ?_ hseen
      rcases List.mem_cons.mp hx with hx | hx
      · cases hx
      · exact hx
    | some b =>
      simp only [dedupFirstAux]
      by_cases hb : b ∈ seen
      · rw [if_pos hb]
        refine ih ?_ hseen
        rcases List.mem_cons.mp hx with hx | hx
        · cases hx
          exact absurd hb hseen
        · exact hx
      · rw [if_neg hb]
        exact List.cons_ne_nil _ _

/-- Equation of a successful _unique_list merge. -/
theorem unique_list_eq {a b : Val} {l : List (Option Str)}
    (h : unique_list a b = some l) :
    l = dedupFirst (valElemsA a ++ valElemsB b) := by
  cases a <;> cases b <;>
    first
      | (simp only [unique_list, Option.some.injEq] at h; exact h.symm)
      | simp [unique_list] at h

/-- Preservation of an all-entries property by assignment. -/
theorem all_dictSet {p : Entry → Bool} {d : Dict} {k : Str} {v : Val}
    (hd : d.all p = true) (hv : p (k, v) = true) :
    (dictSet d k v).all p = true := by
  rw [List.all_eq_true] at hd ⊢
  intro e he
  rcases mem_dictSet he with he | rfl
  · exact hd e he
  · exact hv

/-- Claim C10 amended: under DEDUPE the merge preserves the invariant that
every stored list holds pairwise-distinct non-None values in first-occurrence
order, provided sequence values are supplied as tuples (a raw list value is
stored as-is on an unseen key and is exempt); non-emptiness of stored lists
is additionally preserved unless the stored value was None and the folded
value is a sequence without any non-None element. -/
theorem claim10_amended (d : Dict) (k : Str) (v : Val) (d2 : Dict)
    (hA : groupDistinctOk d = true) (hlst : ∀ l, v ≠ Val.lst l)
    (h : update_key d k v = some d2) :
    groupDistinctOk d2 = true ∧
      (groupNonEmpty d = true →
        ¬ (lookup? d k = some Val.null ∧ seqNoScalar v = true) →
        groupNonEmpty d2 = true) := by
  have hvd : valDistinctOk v = true := by
    cases v with
    | lst l => exact absurd rfl (hlst l)
    | null => rfl
    | str s => rfl
    | tup l => rfl
  have hvn : valNonEmpty v = true := by
    cases v with
    | lst l => exact absurd rfl (hlst l)
    | null => rfl
    | str s => rfl
    | tup l => rfl
  unfold update_key at h
  cases hl : lookup? d k with
  | none =>
    rw [hl] at h
    dsimp only at h
    cases h
    exact ⟨all_dictSet hA hvd, fun hB _ => all_dictSet hB hvn⟩
  | some stored =>
    rw [hl] at h
    dsimp only at h
    split at h
    · cases h
      exact ⟨hA, fun hB _ => hB⟩
    · next hpy =>
      obtain ⟨l, hul, h2⟩ := Option.map_eq_some'.mp h
      cases h2
      have hleq := unique_list_eq hul
      have hnodup : l.Nodup := by
        rw [hleq]
        exact dedupFirstAux_nodup [] _
      have hsome : ∀ y ∈ l, y.isSome = true := by
        intro y hy
        rw [hleq] at hy
        obtain ⟨x, rfl, _⟩ := dedupFirstAux_mem hy
        rfl
      have hld : valDistinctOk (Val.lst l) = true := by
        show (decide l.Nodup && l.all (fun x => x.isSome)) = true
        rw [Bool.and_eq_true, decide_eq_true_eq, List.all_eq_true]
        exact ⟨hnodup, hsome⟩
      refine ⟨all_dictSet hA hld, ?_⟩
      intro hB hC
      have hwit : ∃ x, some x ∈ valElemsA stored ++ valElemsB v := by
        cases stored with
        | tup la => simp [unique_list] at hul
        | str s =>
          exact ⟨s, List.mem_append_left _ (List.mem_singleton.mpr rfl)⟩
        | lst l0 =>
          have hmem := lookup?_mem hl
          have h0d := List.all_eq_true.mp hA _ hmem
          have h0n := List.all_eq_true.mp hB _ hmem
          have hne : l0 ≠ [] := by
            intro hnil
            rw [show valNonEmpty (Val.lst l0) = !l0.isEmpty from rfl,
              hnil] at h0n
            cases h0n
          obtain ⟨o, l0r, rfl⟩ := List.exists_cons_of_ne_nil hne
          have h0d2 : (o :: l0r).all (fun x => x.isSome) = true := by
            have h3 := h0d
            rw [show valDistinctOk (Val.lst (o :: l0r)) =
              (decide (o :: l0r).Nodup
                && (o :: l0r).all (fun x => x.isSome)) from rfl,
              Bool.and_eq_true] at h3
            exact h3.2
          have hos : o.isSome = true :=
            List.all_eq_true.mp h0d2 o (List.mem_cons_self _ _)
          obtain ⟨x, rfl⟩ := Option.isSome_iff_exists.mp hos
          exact ⟨x, List.mem_append_left _ (List.mem_cons_self _ _)⟩
        | null =>
          have hsns : seqNoScalar v = false := by
            cases hv : seqNoScalar v with
            | false => rfl
            | true => exact absurd ⟨rfl, hv⟩ hC
          cases v with
          | null => exact absurd rfl hpy
          | str s =>
            exact ⟨s, List.mem_append_right _ (List.mem_singleton.mpr rfl)⟩
          | lst l1 => exact absurd rfl (hlst l1)
          | tup l1 =>
            rw [show seqNoScalar (Val.tup l1) =
              l1.all (fun x => x.isNone) from rfl] at hsns
            have hex : ∃ o ∈ l1, ¬ (o.isNone = true) := by
              by_contra hcon
              push_neg at hcon
              rw [List.all_eq_true.mpr hcon] at hsns
              cases hsns
            obtain ⟨o, ho, hno⟩ := hex
            cases o with
            | none => exact absurd rfl hno
            | some y => exact ⟨y, List.mem_append_right _ ho⟩
      obtain ⟨x, hx⟩ := hwit
      have hlne : l ≠ [] := by
        rw [hleq]
        exact dedupFirstAux_ne_nil hx (List.not_mem_nil x)
      have hln : valNonEmpty (Val.lst l) = true := by
        rw [show valNonEmpty (Val.lst l) = !l.isEmpty from rfl]
        cases l with
        | nil => exact absurd rfl hlne
        | cons a r => rfl
      exact all_dictSet hB hln

/-- Claim C10 witness: the amended preservation applied to merging a second
distinct value into a scalar key. -/
theorem claim10_witness :
    groupDistinctOk
        [(("a".data : Str), Val.lst [some "1".data, some "2".data])] = true
    ∧ (groupNonEmpty [(("a".data : Str), Val.str "1".data)] = true →
        ¬ (lookup? [(("a".data : Str), Val.str "1".data)] "a".data =
              some Val.null
            ∧ seqNoScalar (Val.str "2".data) = true) →
        groupNonEmpty
          [(("a".data : Str), Val.lst [some "1".data, some "2".data])] = true) :=
  claim10_amended [("a".data, Val.str "1".data)] "a".data (Val.str "2".data)
    [("a".data, Val.lst [some "1".data, some "2".data])]
    (by decide) (fun l hl => Val.noConfusion hl) rfl

/-- Encoding can only lengthen a string. -/
theorem quotePlus_length (s : Str) : s.length ≤ (quotePlus s).length := by
  induction s with
  | nil => exact Nat.le_refl 0
  | cons c rest ih =>
    show (c :: rest).length ≤ (quotePlusChar c ++ quotePlus rest).length
    rw [List.length_append, List.length_cons]
    have h1 : 1 ≤ (quotePlusChar c).length := by
      unfold quotePlusChar quoteChar pctEncode
      split
      · exact Nat.le_refl 1
      · split
        · exact Nat.le_refl 1
        · exact Nat.le_of_lt (by simp)
    omega

/-- A string fixed by quote_plus consists of always-safe characters. -/
theorem quotePlus_eq_self {s : Str} (h : quotePlus s = s) :
    ∀ c ∈ s, alwaysSafe c = true := by
  induction s with
  | nil => intro c hc; cases hc
  | cons c rest ih =>
    have he : quotePlusChar c ++ quotePlus rest = c :: rest := h
    by_cases hsp : c = ' '
    · exfalso
      rw [show quotePlusChar c = ['+'] from by
        unfold quotePlusChar; rw [if_pos hsp]] at he
      injection he with h1 _
      rw [hsp] at h1
      exact absurd h1 (by decide)
    · by_cases hsafe : alwaysSafe c
      · rw [show quotePlusChar c = [c] from by
          unfold quotePlusChar
          rw [if_neg hsp]
          unfold quoteChar
          rw [if_pos hsafe]] at he
        injection he with _ h2
        intro c2 hc2
        rcases List.mem_cons.mp hc2 with rfl | hc2
        · exact hsafe
        · exact ih h2 c2 hc2
      · exfalso
        rw [show quotePlusChar c = pctEncode c from by
          unfold quotePlusChar
          rw [if_neg hsp]
          unfold quoteChar
          rw [if_neg hsafe]] at he
        rw [pctEncode] at he
        injection he with _ h2
        have hlen := quotePlus_length rest
        have h8 := congrArg List.length h2
        rw [List.append_eq, List.length_append] at h8
        simp only [List.length_cons, List.length_nil] at h8
        omega

/-- Strings made of safe characters are fixed by quote. -/
theorem quote_eq_self_of_safe {s : Str} (h : ∀ c ∈ s, alwaysSafe c = true) :
    quote s = s := by
  induction s with
  | nil => rfl
  | cons c rest ih =>
    show quoteChar c ++ quote rest = c :: rest
    rw [show quoteChar c = [c] from by
      unfold quoteChar
      rw [if_pos (h c (List.mem_cons_self _ _))]]
    rw [ih (fun c2 hc2 => h c2 (List.mem_cons_of_mem _ hc2))]
    rfl

/-- Strings made of safe characters are fixed by quote_plus. -/
theorem quotePlus_eq_self_of_safe {s : Str}
    (h : ∀ c ∈ s, alwaysSafe c = true) : quotePlus s = s := by
  induction s with
  | nil => rfl
  | cons c rest ih =>
    show quotePlusChar c ++ quotePlus rest = c :: rest
    have hsafe := h c (List.mem_cons_self _ _)
    have hsp : ¬ c = ' ' := by
      intro he
      rw [he] at hsafe
      exact absurd hsafe (by decide)
    rw [show quotePlusChar c = [c] from by
      unfold quotePlusChar
      rw [if_neg hsp]
      unfold quoteChar
      rw [if_pos hsafe]]
    rw [ih (fun c2 hc2 => h c2 (List.mem_cons_of_mem _ hc2))]
    rfl

/-- An unsafe character cannot occur in an all-safe string. -/
theorem not_mem_of_safe {s : Str} (h : ∀ c ∈ s, alwaysSafe c = true)
    {c2 : Char} (hc2 : alwaysSafe c2 = false) : c2 ∉ s := by
  intro hm
  rw [h c2 hm] at hc2
  cases hc2

/-- Splitting a string free of the separator yields that single chunk. -/
theorem splitOnChar_not_mem {c : Char} {s : Str} (h : c ∉ s) :
    splitOnChar c s = [s] := by
  induction s with
  | nil => rfl
  | cons x rest ih =>
    simp only [List.mem_cons, not_or] at h
    show (if x = c then [] :: splitOnChar c rest
      else match splitOnChar c rest with
        | h :: t => (x :: h) :: t
        | [] => [[x]]) = [x :: rest]
    rw [if_neg (fun he => h.1 he.symm), ih h.2]

/-- Splitting after a separator-free chunk peels that chunk off. -/
theorem splitOnChar_append_cons {c : Char} {t s : Str} (h : c ∉ t) :
    splitOnChar c (t ++ c :: s) = t :: splitOnChar c s := by
  induction t with
  | nil =>
    show (if c = c then [] :: splitOnChar c s else _) = [] :: splitOnChar c s
    rw [if_pos rfl]
  | cons x rest ih =>
    simp only [List.mem_cons, not_or] at h
    rw [List.cons_append]
    show (if x = c then [] :: splitOnChar c (rest ++ c :: s)
      else match splitOnChar c (rest ++ c :: s) with
        | h :: t => (x :: h) :: t
        | [] => [[x]]) = (x :: rest) :: splitOnChar c s
    rw [if_neg (fun he => h.1 he.symm), ih h.2]

/-- Unfolding equation of joinSep on two and more pieces. -/
theorem joinSep_cons2 (sep : Char) (t r : Str) (rs : List Str) :
    joinSep [sep] (t :: r :: rs) = t ++ sep :: joinSep [sep] (r :: rs) := by
  show t ++ [sep] ++ joinSep [sep] (r :: rs) = _
  rw [List.append_assoc]
  rfl

/-- Splitting a join recovers the pieces when none contains the separator. -/
theorem joinSep_split (sep : Char) : ∀ (L : List Str), L ≠ [] →
    (∀ t ∈ L, sep ∉ t) → splitOnChar sep (joinSep [sep] L) = L := by
  intro L
  induction L with
  | nil => intro h; cases h rfl
  | cons t ts ih =>
    intro _ htok
    cases ts with
    | nil => exact splitOnChar_not_mem (htok t (List.mem_cons_self _ _))
    | cons r rs =>
      rw [joinSep_cons2,
        splitOnChar_append_cons (htok t (List.mem_cons_self _ _)),
        ih (List.cons_ne_nil _ _)
          (fun u hu => htok u (List.mem_cons_of_mem _ hu))]

/-- A join collapsing to the empty string comes from no pieces or from the
single empty piece. -/
theorem joinSep_eq_nil {sep : Char} {L : List Str}
    (h : joinSep [sep] L = []) : L = [] ∨ L = [[]] := by
  cases L with
  | nil => exact Or.inl rfl
  | cons t ts =>
    cases ts with
    | nil =>
      refine Or.inr ?_
      rw [show joinSep [sep] [t] = t from rfl] at h
      rw [h]
    | cons r rs =>
      exfalso
      rw [joinSep_cons2] at h
      rcases List.append_eq_nil.mp h with ⟨_, h2⟩
      cases h2

/-- Unfolding equations of dictSet on a cons cell. -/
theorem dictSet_cons_eq {e : Entry} {rest : Dict} {k : Str} {v : Val}
    (h : e.1 = k) : dictSet (e :: rest) k v = (e.1, v) :: rest := by
  unfold dictSet
  rw [if_pos h]

/-- Unfolding equation of dictSet when the head key differs. -/
theorem dictSet_cons_ne {e : Entry} {rest : Dict} {k : Str} {v : Val}
    (h : ¬ e.1 = k) : dictSet (e :: rest) k v = e :: dictSet rest k v := by
  show (if e.1 = k then (e.1, v) :: rest else e :: dictSet rest k v) = _
  rw [if_neg h]

/-- Overwriting an assignment with another assignment of the same key. -/
theorem dictSet_dictSet (d : Dict) (k : Str) (a b : Val) :
    dictSet (dictSet d k a) k b = dictSet d k b := by
  induction d with
  | nil =>
    show dictSet [(k, a)] k b = [(k, b)]
    exact dictSet_cons_eq rfl
  | cons e rest ih =>
    by_cases he : e.1 = k
    · rw [dictSet_cons_eq he, dictSet_cons_eq he,
        show dictSet ((e.1, a) :: rest) k b = ((e.1, a).1, b) :: rest from
          dictSet_cons_eq he]
    · rw [dictSet_cons_ne he, dictSet_cons_ne he, dictSet_cons_ne he, ih]

/-- Looking up the key just assigned. -/
theorem lookup?_dictSet_self (d : Dict) (k : Str) (v : Val) :
    lookup? (dictSet d k v) k = some v := by
  induction d with
  | nil =>
    show lookup? [(k, v)] k = some v
    unfold lookup?
    rw [if_pos rfl]
  | cons e rest ih =>
    by_cases he : e.1 = k
    · rw [dictSet_cons_eq he]
      show (if e.1 = k then some v else lookup? rest k) = some v
      rw [if_pos he]
    · rw [dictSet_cons_ne he]
      show (if e.1 = k then some e.2 else lookup? (dictSet rest k v) k) = some v
      rw [if_neg he, ih]

/-- Assignment of a fresh key appends the new entry. -/
theorem dictSet_fresh {d : Dict} {k : Str} (h : k ∉ d.map Prod.fst) (v : Val) :
    dictSet d k v = d ++ [(k, v)] := by
  induction d with
  | nil => rfl
  | cons e rest ih =>
    simp only [List.map_cons, List.mem_cons, not_or] at h
    rw [dictSet_cons_ne (fun he => h.1 he.symm), ih h.2]
    rfl

/-- Assignment preserves distinctness of keys. -/
theorem keys_nodup_dictSet {d : Dict} {k : Str} {v : Val}
    (h : (d.map Prod.fst).Nodup) : ((dictSet d k v).map Prod.fst).Nodup := by
  rw [keys_dictSet]
  by_cases hm : k ∈ d.map Prod.fst
  · rw [if_pos hm]
    exact h
  · rw [if_neg hm]
    rw [List.nodup_append]
    exact ⟨h, List.nodup_singleton k,
      fun a ha hb => hm ((List.mem_singleton.mp hb) ▸ ha)⟩

/-- The monadic fold of the assignment strategy is the plain fold. -/
theorem foldEntries_setKeyM (d : Dict) (L : List Entry) :
    foldEntries setKeyM d L = some (foldSetList d L) := by
  induction L generalizing d with
  | nil => rfl
  | cons e rest ih => exact ih (set_key d e.1 e.2)

/-- The plain assignment fold preserves distinctness of keys. -/
theorem foldSetList_keys_nodup {d : Dict} (h : (d.map Prod.fst).Nodup)
    (L : List Entry) : ((foldSetList d L).map Prod.fst).Nodup := by
  induction L generalizing d with
  | nil => exact h
  | cons e rest ih => exact ih (keys_nodup_dictSet h)

/-- Folding entries with fresh, pairwise distinct keys appends them. -/
theorem foldSetList_fresh : ∀ {L : List Entry} {d : Dict},
    (L.map Prod.fst).Nodup → (∀ x ∈ L.map Prod.fst, x ∉ d.map Prod.fst) →
    foldSetList d L = d ++ L := by
  intro L
  induction L with
  | nil =>
    intro d _ _
    rw [List.append_nil]
    rfl
  | cons e rest ih =>
    intro d hnd hfresh
    show foldSetList (set_key d e.1 e.2) rest = d ++ e :: rest
    have hkey : e.1 ∉ d.map Prod.fst :=
      hfresh e.1 (List.mem_cons_self _ _)
    have hset : set_key d e.1 e.2 = d ++ [e] := by
      show dictSet d e.1 e.2 = d ++ [e]
      rw [dictSet_fresh hkey]
    rw [hset]
    rw [ih (List.nodup_cons.mp hnd).2 ?hfr]
    case hfr =>
      intro x hx
      simp only [List.map_append, List.map_cons, List.map_nil,
        List.mem_append, List.mem_singleton, not_or]
      refine ⟨fun hc => hfresh x (List.mem_cons_of_mem _ hx) hc, ?_⟩
      simp only [List.mem_cons, List.not_mem_nil, or_false] at *
      intro hc
      exact (List.nodup_cons.mp hnd).1 (hc ▸ hx)
    rw [List.append_assoc]
    rfl

/-- Replacing the value of an absent key changes nothing. -/
theorem mapValAt_not_mem {d : Dict} {k : Str} (h : k ∉ d.map Prod.fst)
    (w : Val) : mapValAt d k w = d := by
  induction d with
  | nil => rfl
  | cons e rest ih =>
    simp only [List.map_cons, List.mem_cons, not_or] at h
    show (if e.1 = k then (e.1, w) else e) :: mapValAt rest k w = e :: rest
    rw [if_neg (fun he => h.1 he.symm), ih h.2]

/-- Keys survive a value replacement unchanged. -/
theorem keys_mapValAt (d : Dict) (k : Str) (w : Val) :
    (mapValAt d k w).map Prod.fst = d.map Prod.fst := by
  induction d with
  | nil => rfl
  | cons e rest ih =>
    show (if e.1 = k then (e.1, w) else e).1 :: (mapValAt rest k w).map Prod.fst
      = e.1 :: rest.map Prod.fst
    rw [ih]
    by_cases he : e.1 = k
    · rw [if_pos he]
    · rw [if_neg he]

/-- Assigning a key erases a previous value replacement at that key. -/
theorem dictSet_mapValAt {d : Dict} {k : Str}
    (hnd : (d.map Prod.fst).Nodup) (w v : Val) :
    dictSet (mapValAt d k w) k v = dictSet d k v := by
  induction d with
  | nil => rfl
  | cons e rest ih =>
    have hnd2 := List.nodup_cons.mp hnd
    by_cases he : e.1 = k
    · show dictSet ((if e.1 = k then (e.1, w) else e) :: mapValAt rest k w)
        k v = _
      rw [if_pos he]
      rw [show dictSet ((e.1, w) :: mapValAt rest k w) k v =
        ((e.1, w).1, v) :: mapValAt rest k w from dictSet_cons_eq he]
      rw [dictSet_cons_eq he]
      rw [mapValAt_not_mem (he ▸ hnd2.1) w]
    · show dictSet ((if e.1 = k then (e.1, w) else e) :: mapValAt rest k w)
        k v = _
      rw [if_neg he]
      rw [dictSet_cons_ne he, dictSet_cons_ne he, ih hnd2.2]

/-- The inferred separator is one of the two legal separators. -/
theorem inferSep_cases (q : Str) : inferSep q = ';' ∨ inferSep q = '&' := by
  unfold inferSep
  split
  · exact Or.inl rfl
  · exact Or.inr rfl

/-- In a dictionary with distinct keys, the entry found at the assigned key
is exactly the assigned pair. -/
theorem mem_dictSet_key {d : Dict} (hnd : (d.map Prod.fst).Nodup)
    {k : Str} {v : Val} {e : Entry} (he : e ∈ dictSet d k v)
    (hek : e.1 = k) : e = (k, v) := by
  induction d with
  | nil =>
    simp only [dictSet, List.mem_singleton] at he
    exact he
  | cons e0 rest ih =>
    have hnd2 := List.nodup_cons.mp
      (show (e0.1 :: rest.map Prod.fst).Nodup from hnd)
    by_cases h0 : e0.1 = k
    · rw [dictSet_cons_eq h0] at he
      rcases List.mem_cons.mp he with rfl | he
      · rw [h0]
      · exfalso
        have : e.1 ∈ rest.map Prod.fst := List.mem_map_of_mem Prod.fst he
        rw [hek, ← h0] at this
        exact hnd2.1 this
    · rw [dictSet_cons_ne h0] at he
      rcases List.mem_cons.mp he with rfl | he
      · exact absurd hek h0
      · exact ih hnd2.2 he

/-- A key absent in a chunk parses to a bare key with a None value. -/
theorem parseChunk_token_null {s : Str} (h : '=' ∉ s) :
    parseChunk s = (s, Val.null) := by
  unfold parseChunk
  rw [splitFirst_eq_none h]

/-- A chunk with an equals-free key parses at that equals sign. -/
theorem parseChunk_token_pair {k v : Str} (hk : '=' ∉ k) :
    parseChunk (k ++ '=' :: v) = (k, Val.str v) := by
  unfold parseChunk
  rw [splitFirst_append hk]

/-- A stable None entry serializes to its bare key. -/
theorem encodePair_null_stable {k : Str} (hk : quotePlus k = k) :
    encodePair k Val.null = k := by
  show quote k = k
  exact quote_eq_self_of_safe (quotePlus_eq_self hk)

/-- Stable entries survive a serialize-parse cycle unchanged. -/
theorem parse_token_stable {e : Entry} (hk : quotePlus e.1 = e.1)
    (hv : stableValB e.2 = true) :
    parseChunk (encodePair e.1 e.2) = e := by
  obtain ⟨k0, v0⟩ := e
  have hsafe := quotePlus_eq_self hk
  cases v0 with
  | null =>
    rw [encodePair_null_stable hk]
    exact parseChunk_token_null (not_mem_of_safe hsafe (by decide))
  | str s =>
    have hs : quotePlus s = s := by
      have := hv
      rw [show stableValB (Val.str s) = (quotePlus s == s) from rfl,
        beq_iff_eq] at this
      exact this
    show parseChunk (urlencodePair k0 s) = (k0, Val.str s)
    rw [urlencodePair, hk, hs]
    exact parseChunk_token_pair (not_mem_of_safe hsafe (by decide))
  | tup l => simp [stableValB] at hv
  | lst l => simp [stableValB] at hv

/-- The freshly overridden scalar survives the cycle as its re-encoding. -/
theorem parse_token_override {k : Str} {v : Val} (hk : quotePlus k = k)
    (hv : v = Val.null ∨ ∃ s, v = Val.str s) :
    parseChunk (encodePair k v) = (k, reEnc v) := by
  have hsafe := quotePlus_eq_self hk
  rcases hv with rfl | ⟨s, rfl⟩
  · rw [encodePair_null_stable hk]
    exact parseChunk_token_null (not_mem_of_safe hsafe (by decide))
  · show parseChunk (urlencodePair k s) = (k, Val.str (quotePlus s))
    rw [urlencodePair, hk]
    exact parseChunk_token_pair (not_mem_of_safe hsafe (by decide))

/-- A stable token contains only safe characters and the equals sign. -/
theorem token_stable_not_mem {k : Str} {v : Val} {c : Char}
    (hk : quotePlus k = k) (hv : stableValB v = true)
    (hc1 : alwaysSafe c = false) (hc2 : c ≠ '=') :
    c ∉ encodePair k v := by
  have hks := quotePlus_eq_self hk
  cases v with
  | null =>
    rw [encodePair_null_stable hk]
    exact not_mem_of_safe hks hc1
  | str s =>
    have hs : quotePlus s = s := by
      have := hv
      rw [show stableValB (Val.str s) = (quotePlus s == s) from rfl,
        beq_iff_eq] at this
      exact this
    show c ∉ urlencodePair k s
    rw [urlencodePair, hk, hs]
    intro hm
    rcases List.mem_append.mp hm with hm | hm
    · exact not_mem_of_safe hks hc1 hm
    · rcases List.mem_cons.mp hm with hm | hm
      · exact hc2 hm
      · exact not_mem_of_safe (quotePlus_eq_self hs) hc1 hm
  | tup l => simp [stableValB] at hv
  | lst l => simp [stableValB] at hv

/-- The serialization of the OVERRIDE strategy in closed form: fold the
parsed query, the ordered parameters and the keyword arguments by plain
assignment, then serialize. -/
theorem mergeQuery_override (q : Str) (pd kw : List Entry) (sep : Char) :
    mergeQuery none q pd kw sep =
      some (joinSep [sep]
        ((foldSetList (foldSetList (foldSetList [] (parseQuery q sep)) pd)
          kw).map (fun e : Entry => encodePair e.1 e.2))) := by
  show update_params q pd kw sep setKeyM = _
  unfold update_params mergedDict
  rw [foldEntries_setKeyM]
  dsimp only
  rw [foldEntries_setKeyM]
  dsimp only
  rw [foldEntries_setKeyM]
  rfl

/-- Pointwise equal functions give equal maps. -/
theorem map_congr_mem {α β : Type} {f g : α → β} : ∀ {l : List α},
    (∀ a ∈ l, f a = g a) → l.map f = l.map g := by
  intro l
  induction l with
  | nil => intro _; rfl
  | cons x xs ih =>
    intro h
    show f x :: xs.map f = g x :: xs.map g
    rw [h x (List.mem_cons_self _ _),
      ih (fun a ha => h a (List.mem_cons_of_mem _ ha))]

/-- Assignment never empties a dictionary. -/
theorem dictSet_ne_nil (d : Dict) (k : Str) (v : Val) : dictSet d k v ≠ [] := by
  cases d with
  | nil => exact List.cons_ne_nil _ _
  | cons e rest =>
    by_cases he : e.1 = k
    · rw [dictSet_cons_eq he]
      exact List.cons_ne_nil _ _
    · rw [dictSet_cons_ne he]
      exact List.cons_ne_nil _ _

/-- In an overridden collection every token is free of every character that
is unsafe and not one of percent, plus, equals. -/
theorem override_tokens_free {k : Str} {v : Val} {C1 : Dict}
    (hk : quotePlus k = k)
    (hv : v = Val.null ∨ ∃ s, v = Val.str s)
    (hkval : ∀ e ∈ C1, e.1 = k → e = (k, v))
    (hstable1 : ∀ e ∈ C1, e.1 ≠ k →
      quotePlus e.1 = e.1 ∧ stableValB e.2 = true) :
    ∀ e ∈ C1, ∀ c : Char, alwaysSafe c = false → c ≠ '%' → c ≠ '+' →
      c ≠ '=' → c ∉ encodePair e.1 e.2 := by
  intro e he c hc1 hc2 hc3 hc4
  by_cases hek : e.1 = k
  · rw [hkval e he hek]
    rcases hv with rfl | ⟨s, rfl⟩
    · rw [encodePair_null_stable hk]
      exact not_mem_of_safe (quotePlus_eq_self hk) hc1
    · intro hm
      rcases mem_urlencodePair hm with h | h | h | h
      · rw [h] at hc1; cases hc1
      · exact hc2 h
      · exact hc3 h
      · exact hc4 h
  · obtain ⟨hsk, hsv⟩ := hstable1 e he hek
    exact token_stable_not_mem hsk hsv hc1 hc4

/-- The token of the overridden scalar entry is never empty for a non-empty
key. -/
theorem override_token_ne_nil {k : Str} {v : Val}
    (hk : quotePlus k = k) (hk0 : k ≠ [])
    (hv : v = Val.null ∨ ∃ s, v = Val.str s) : encodePair k v ≠ [] := by
  rcases hv with rfl | ⟨s, rfl⟩
  · rw [encodePair_null_stable hk]
    exact hk0
  · show urlencodePair k s ≠ []
    rw [urlencodePair]
    intro hc
    rcases List.append_eq_nil.mp hc with ⟨_, h2⟩
    cases h2

/-- Core of the OVERRIDE idempotence: parsing the serialized collection back
with the separator inferred from it and re-applying the same override
reproduces the collection, hence the same query string. -/
theorem override_reparse (k : Str) (v : Val) (C1 : Dict) (sep0 : Char)
    (q1 : Str)
    (hk : quotePlus k = k) (hk0 : k ≠ [])
    (hv : v = Val.null ∨ ∃ s, v = Val.str s)
    (hsepcases : sep0 = ';' ∨ sep0 = '&')
    (hnd1 : (C1.map Prod.fst).Nodup)
    (hkmem : k ∈ C1.map Prod.fst)
    (hkval : ∀ e ∈ C1, e.1 = k → e = (k, v))
    (hstable1 : ∀ e ∈ C1, e.1 ≠ k →
      quotePlus e.1 = e.1 ∧ stableValB e.2 = true)
    (hfix : dictSet C1 k v = C1)
    (hq1 : q1 = joinSep [sep0] (C1.map (fun e : Entry => encodePair e.1 e.2))) :
    joinSep [inferSep q1]
      ((dictSet (foldSetList [] (parseQuery q1 (inferSep q1))) k v).map
        (fun e : Entry => encodePair e.1 e.2)) = q1 := by
  have hC1ne : C1 ≠ [] := by
    intro h
    rw [h] at hkmem
    cases hkmem
  have htokfree := override_tokens_free hk hv hkval hstable1
  have hktok := override_token_ne_nil hk hk0 hv
  have hq1ne : q1 ≠ [] := by
    rw [hq1]
    intro hnil
    rcases joinSep_eq_nil hnil with h | h
    · exact hC1ne (List.map_eq_nil_iff.mp h)
    · cases hC1c : C1 with
      | nil => exact hC1ne hC1c
      | cons e ts =>
        rw [hC1c] at h
        injection h with ha hb
        have hts : ts = [] := List.map_eq_nil_iff.mp hb
        have hek : e.1 = k := by
          have hm := hkmem
          rw [hC1c, hts] at hm
          simp only [List.map_cons, List.map_nil, List.mem_singleton] at hm
          exact hm.symm
        have hev := hkval e (by rw [hC1c]; exact List.mem_cons_self _ _) hek
        rw [hev] at ha
        exact hktok ha
  have hsplitjoin : splitOnChar (inferSep q1) q1 =
        C1.map (fun e : Entry => encodePair e.1 e.2)
      ∧ joinSep [inferSep q1]
          (C1.map (fun e : Entry => encodePair e.1 e.2)) = q1 := by
    cases C1 with
    | nil => exact absurd rfl hC1ne
    | cons e1 ts =>
      cases ts with
      | nil =>
        have hek : e1.1 = k := by
          have hm := hkmem
          simp only [List.map_cons, List.map_nil, List.mem_singleton] at hm
          exact hm.symm
        have he1v : e1 = (k, v) := hkval e1 (List.mem_cons_self _ _) hek
        subst he1v
        have hq1tok : q1 = encodePair k v := by
          rw [hq1]
          rfl
        have hnoamp : '&' ∉ q1 := by
          rw [hq1tok]
          exact htokfree ((k, v) : Entry) (List.mem_cons_self _ _) '&'
            (by decide) (by decide) (by decide) (by decide)
        have hnos : ';' ∉ q1 := by
          rw [hq1tok]
          exact htokfree ((k, v) : Entry) (List.mem_cons_self _ _) ';'
            (by decide) (by decide) (by decide) (by decide)
        have hsep1 : inferSep q1 = '&' := inferSep_not_semi hnos
        constructor
        · rw [hsep1, hq1tok]
          rw [splitOnChar_not_mem (hq1tok ▸ hnoamp)]
          rfl
        · rw [hsep1]
          exact hq1tok.symm
      | cons e2 rest2 =>
        have hmapne : (e1 :: e2 :: rest2).map
            (fun e : Entry => encodePair e.1 e.2) ≠ [] := by simp
        have htf : ∀ t ∈ (e1 :: e2 :: rest2).map
            (fun e : Entry => encodePair e.1 e.2), sep0 ∉ t := by
          intro t ht
          obtain ⟨e, he, rfl⟩ := List.mem_map.mp ht
          rcases hsepcases with h0 | h0 <;> rw [h0] <;>
            exact htokfree e he _ (by decide) (by decide) (by decide)
              (by decide)
        have hsepin : sep0 ∈ q1 := by
          rw [hq1, List.map_cons, List.map_cons, joinSep_cons2]
          exact List.mem_append_right _ (List.mem_cons_self _ _)
        have hsep1 : inferSep q1 = sep0 := by
          rcases hsepcases with h0 | h0
          · rw [h0]
            unfold inferSep
            rw [if_pos ⟨hq1ne, h0 ▸ hsepin⟩]
          · rw [h0]
            apply inferSep_not_semi
            intro hmem
            rw [hq1] at hmem
            rcases mem_joinSep hmem with hm | ⟨t, ht, hc⟩
            · have h9 : ';' = sep0 := List.mem_singleton.mp hm
              rw [h0] at h9
              exact absurd h9 (by decide)
            · obtain ⟨e, he, rfl⟩ := List.mem_map.mp ht
              exact htokfree e he ';' (by decide) (by decide) (by decide)
                (by decide) hc
        refine ⟨?_, ?_⟩
        · rw [hsep1, hq1]
          exact joinSep_split sep0 _ hmapne htf
        · rw [hsep1, hq1]
  have hparse : parseQuery q1 (inferSep q1) = mapValAt C1 k (reEnc v) := by
    unfold parseQuery
    rw [if_neg hq1ne, hsplitjoin.1, List.map_map]
    refine map_congr_mem ?_
    intro e he
    by_cases hek : e.1 = k
    · show parseChunk (encodePair e.1 e.2) = _
      rw [if_pos hek, hkval e he hek]
      exact parse_token_override hk hv
    · show parseChunk (encodePair e.1 e.2) = _
      rw [if_neg hek]
      exact parse_token_stable (hstable1 e he hek).1 (hstable1 e he hek).2
  have hfold2 : foldSetList [] (parseQuery q1 (inferSep q1)) =
      mapValAt C1 k (reEnc v) := by
    rw [hparse]
    have hfr : ∀ x ∈ (mapValAt C1 k (reEnc v)).map Prod.fst,
        x ∉ (([] : Dict)).map Prod.fst :=
      fun x _ hc => absurd hc (List.not_mem_nil x)
    rw [foldSetList_fresh (by rw [keys_mapValAt]; exact hnd1) hfr]
    rfl
  rw [hfold2, dictSet_mapValAt hnd1, hfix, hsplitjoin.2]

/-- Closed evaluation of an OVERRIDE call with one keyword argument: parse
the query with the inferred separator, fold by assignment, override the key,
serialize, splice. -/
theorem add_override_eq (u k2 : Str) (v2 : Val) :
    add_query_params (PyArgs.a2 u none) [(k2, v2)] =
      Except.ok (urlunparse3 ⟨(urlparse3 u).base,
        joinSep [inferSep (urlparse3 u).query]
          ((dictSet (foldSetList []
              (parseQuery (urlparse3 u).query (inferSep (urlparse3 u).query)))
            k2 v2).map (fun e : Entry => encodePair e.1 e.2)),
        (urlparse3 u).frag⟩) := by
  unfold add_query_params
  rw [if_neg (by simp)]
  simp only [PyArgs.sepArg, PyArgs.url, PyArgs.allowDups, PyArgs.pdList]
  rw [normSep_none]
  dsimp only
  rw [mergeQuery_override]
  dsimp only
  rfl

/-- The OVERRIDE result is a fixed point of the same OVERRIDE call, given a
clean base, the established collection facts, and stability of the entries
other than the overridden key. -/
theorem override_idem_core (base frag k : Str) (v : Val) (C1 : Dict)
    (sep0 : Char) (q1 : Str)
    (hb1 : '#' ∉ base) (hb2 : '?' ∉ base)
    (hk : quotePlus k = k) (hk0 : k ≠ [])
    (hv : v = Val.null ∨ ∃ s, v = Val.str s)
    (hsepcases : sep0 = ';' ∨ sep0 = '&')
    (hnd1 : (C1.map Prod.fst).Nodup)
    (hkmem : k ∈ C1.map Prod.fst)
    (hkval : ∀ e ∈ C1, e.1 = k → e = (k, v))
    (hstable1 : ∀ e ∈ C1, e.1 ≠ k →
      quotePlus e.1 = e.1 ∧ stableValB e.2 = true)
    (hfix : dictSet C1 k v = C1)
    (hq1 : q1 = joinSep [sep0] (C1.map (fun e : Entry => encodePair e.1 e.2))) :
    add_query_params (PyArgs.a2 (urlunparse3 ⟨base, q1, frag⟩) none)
        [(k, v)] =
      Except.ok (urlunparse3 ⟨base, q1, frag⟩) := by
  have htokfree := override_tokens_free hk hv hkval hstable1
  have hq1hash : '#' ∉ q1 := by
    intro hm
    rw [hq1] at hm
    rcases mem_joinSep hm with hm | ⟨t, ht, hc⟩
    · have h9 : '#' = sep0 := List.mem_singleton.mp hm
      rcases hsepcases with h0 | h0 <;> rw [h0] at h9 <;>
        exact absurd h9 (by decide)
    · obtain ⟨e, he, rfl⟩ := List.mem_map.mp ht
      exact htokfree e he '#' (by decide) (by decide) (by decide)
        (by decide) hc
  rw [add_override_eq]
  rw [urlparse3_unparse hb1 hb2 hq1hash]
  dsimp only
  rw [override_reparse k v C1 sep0 q1 hk hk0 hv hsepcases hnd1 hkmem hkval
    hstable1 hfix hq1]

/-- Claim C7 amended: OVERRIDE is idempotent provided the keyword key is a
non-empty string fixed by the encoder (Python keyword names always are), the
override value is a scalar, and every entry of the parsed original query for
a different key is stable under the serialize-parse cycle (safe-character
keys and values); the unamended claim fails because tokens of other keys are
re-encoded on every pass. -/
theorem claim7_amended (url k : Str) (v : Val) (r1 : Str)
    (hk : quotePlus k = k) (hk0 : k ≠ [])
    (hv : v = Val.null ∨ ∃ s, v = Val.str s)
    (hstable : ∀ e ∈ foldSetList [] (parseQuery (urlparse3 url).query
        (inferSep (urlparse3 url).query)),
      e.1 ≠ k → quotePlus e.1 = e.1 ∧ stableValB e.2 = true)
    (h1 : add_query_params (PyArgs.a2 url none) [(k, v)] = Except.ok r1) :
    add_query_params (PyArgs.a2 r1 none) [(k, v)] = Except.ok r1 := by
  rw [add_override_eq] at h1
  cases h1
  have hch := urlparse3_chars url
  have hnd0 : ((foldSetList [] (parseQuery (urlparse3 url).query
      (inferSep (urlparse3 url).query))).map Prod.fst).Nodup :=
    @foldSetList_keys_nodup []
      (show (([] : Dict).map Prod.fst).Nodup from List.nodup_nil) _
  exact override_idem_core _ _ _ _ _ _ _ hch.1 hch.2.1 hk hk0 hv
    (inferSep_cases _) (keys_nodup_dictSet hnd0)
    (lookup?_isSome_mem (lookup?_dictSet_self _ k v))
    (fun e he hek => mem_dictSet_key hnd0 he hek)
    (fun e he hek => hstable e (by
      rcases mem_dictSet he with h | h
      · exact h
      · exact absurd (by rw [h]) hek) hek)
    (dictSet_dictSet _ k v v)
    rfl

/-- Claim C7 witness: the second application of the same override returns the
first result unchanged on a stable query. -/
theorem claim7_witness :
    add_query_params (PyArgs.a2 "foo?x=1&a=b".data none)
        [("a".data, Val.str "b".data)] = Except.ok "foo?x=1&a=b".data :=
  claim7_amended "foo?x=1".data "a".data (Val.str "b".data)
    "foo?x=1&a=b".data rfl (by decide) (Or.inr ⟨"b".data, rfl⟩)
    (by decide) rfl
